import Mathlib

/-!
Verification of the dynamic-schema export engine of
`pyCellProfiler/cellprofiler/modules/exporttodatabase.py`.

Modelling conventions, used throughout:

* Feature names and column identifiers are lists of characters (`CPName`).
* Python dictionaries keyed by names are association lists with Python
  `dict` update semantics (replace the binding if the key is present,
  append otherwise); iteration follows insertion order.
* The randomness source (`random.uniform(0, len(name))` in
  `ColumnNameMapping.do_mapping`) is an injected stream `rnd : Nat → Nat`
  consumed one index per draw; the drawn index is reduced mod the current
  length, matching `int(random.uniform(0, len(name)))` ∈ `[0, len)`.
* Loops whose termination is not structural (the collision-retry loop of
  `do_mapping`, the 25-row batching loop of `write_data_to_db`) take an
  explicit fuel argument; fuel-irrelevance or fuel-sufficiency lemmas
  recover the meaning of the unbounded loop.
* Numeric measurement values are modelled exactly (`Int` payloads) with an
  explicit finiteness flag standing for the IEEE distinction the code
  tests with `np.isfinite`; no floating-point rounding enters any claim.
-/

set_option autoImplicit false

abbrev CPName := List Char

/-- `'Image'`, the image entity class (`cpmeas.IMAGE`). -/
def sImage : CPName := "Image".data

/-- `'Experiment'` (`cpmeas.EXPERIMENT`). -/
def sExperiment : CPName := "Experiment".data

/-- `'Neighbors'`. -/
def sNeighbors : CPName := "Neighbors".data

def sDescription : CPName := "Description_".data
def sModuleError : CPName := "ModuleError_".data
def sTimeElapsed : CPName := "TimeElapsed_".data
def sExecutionTime : CPName := "ExecutionTime_".data

/-- `cpmeas.AGG_MEAN`. -/
def sMean : CPName := "Mean".data

/-- `cpmeas.AGG_MEDIAN`. -/
def sMedian : CPName := "Median".data

/-- `cpmeas.AGG_STD_DEV`. -/
def sStdDev : CPName := "StdDev".data

/-- Modelled from the spec: `cpmeas.AGG_NAMES`, the constant list of all
aggregate kinds (the `cellprofiler.measurements` module is not part of
this repository; the spec's data model fixes the enum
{Mean, Median, StdDev}). -/
def AGG_NAMES : List CPName := [sMean, sMedian, sStdDev]

def us : CPName := "_".data

/-- `'ImageNumber'`. -/
def sImageNumber : CPName := "ImageNumber".data

/-- `'ObjectNumber'`. -/
def sObjectNumber : CPName := "ObjectNumber".data

/-- `cpmeas.COLTYPE_FLOAT` (modelled from the spec's value-kind Float;
only used as an opaque tag carried in row cells). -/
def FLOATty : CPName := "FLOAT".data

/-- `cpmeas.COLTYPE_INTEGER`. -/
def INTEGERty : CPName := "INTEGER".data

/-- `ExportToDatabase.ignore_object`: ignore objects (other than 'Image')
named 'Experiment' or 'Neighbors'. -/
def ignore_object (o : CPName) : Bool :=
  decide (o = sExperiment) || decide (o = sNeighbors)

/-- `ExportToDatabase.ignore_feature`: true if the feature is excluded
from export. -/
def ignore_feature (o f : CPName) : Bool :=
  ignore_object o || sDescription.isPrefixOf f || sModuleError.isPrefixOf f
    || sTimeElapsed.isPrefixOf f || sExecutionTime.isPrefixOf f

/-- `ExportToDatabase.agg_names`: the list of selected aggregate names,
filtered from ((AGG_MEAN, wants_agg_mean), (AGG_MEDIAN, wants_agg_median),
(AGG_STD_DEV, wants_agg_std_dev)) by the setting value. -/
def agg_names (wantsMean wantsMedian wantsStdDev : Bool) : List CPName :=
  (if wantsMean then [sMean] else []) ++ (if wantsMedian then [sMedian] else [])
    ++ (if wantsStdDev then [sStdDev] else [])

/-- The feature name `"%s_%s" % (object_name, feature_name)`. -/
def featName (o f : CPName) : CPName := o ++ us ++ f

/-- The aggregate feature name `"%s_%s_%s" % (agg_name, object_name, feature)`. -/
def aggFeatName (a o f : CPName) : CPName := a ++ us ++ o ++ us ++ f

/-! ## ColumnNameMapping

`ColumnNameMapping` keeps a dictionary mapping each registered feature
name to its column name; `add` sets `dict[name] = name`, and
`do_mapping` rewrites the values whose length exceeds `max_len`
(64 by default).  Since every value equals its key until `do_mapping`
touches it, the `reverse_dictionary` of the source is exactly the set of
current values, and `key = reverse_dictionary[name]` is the problem name
itself.  The dictionary is modelled as an association list in insertion
order. -/

/-- The three removal groups of `do_mapping`: lowercase vowels, the other
lowercase letters, uppercase letters. -/
def vowels : List Char := "aeiou".data

def consonants : List Char := "bcdfghjklmnpqrstvwxyz".data

def uppercaseLetters : List Char := "ABCDEFGHIJKLMNOPQRSTUVWXYZ".data

/-- One removal pass of `do_mapping`, lines 1020-1027: scan the name from
its end toward its start (here: the reversed name from its head), deleting
characters that belong to `grp`, and stop as soon as `quota` characters
have been deleted.  Returns the processed (still reversed) name and the
number of deletions. -/
def dropGroup (grp : List Char) : Nat → List Char → List Char × Nat
  | _, [] => ([], 0)
  | 0, rev => (rev, 0)
  | q + 1, c :: rest =>
    if c ∈ grp then
      match dropGroup grp q rest with
      | (r, n) => (r, n + 1)
    else
      match dropGroup grp (q + 1) rest with
      | (r, n) => (c :: r, n)

/-- The deterministic shortening of `do_mapping` (lines 1011-1027): remove
`len(name) - max_len` characters right-to-left, in three passes over
vowels, consonants and uppercase letters, each pass stopping once the
quota is met. -/
def threePassShorten (maxLen : Nat) (name : CPName) : CPName :=
  let toRemove := name.length - maxLen
  let rev := name.reverse
  let r1 := dropGroup vowels toRemove rev
  let r2 := dropGroup consonants (toRemove - r1.2) r1.1
  let r3 := dropGroup uppercaseLetters (toRemove - r1.2 - r2.2) r2.1
  r3.1.reverse

/-- The inner random-deletion loop of `do_mapping` (lines 1033-1035):
`while len(name) > max_len: delete the character at a random index`.
Each deletion shortens the name by one, so `fuel = name.length` always
suffices; the second component is the next unused position of the
random stream. -/
def randShorten (rnd : Nat → Nat) (maxLen : Nat) : Nat → CPName → Nat → CPName × Nat
  | 0, name, i => (name, i)
  | fuel + 1, name, i =>
    if name.length ≤ maxLen then (name, i)
    else randShorten rnd maxLen fuel (name.eraseIdx (rnd i % name.length)) (i + 1)

/-- The collision-retry loop of `do_mapping` (lines 1029-1035):
`while name in reverse_dictionary.keys(): name = orig_name; <randShorten>`.
The source imposes NO bound on the number of retries; `fuel` bounds the
model, and `none` means the loop was still running when `fuel` retries
had been spent. -/
def collisionRetry (rnd : Nat → Nat) (maxLen : Nat) (vals : List CPName)
    (orig : CPName) : Nat → CPName → Nat → Option (CPName × Nat)
  | fuel, cand, i =>
    if cand ∈ vals then
      match fuel with
      | 0 => none
      | fuel + 1 =>
        let r := randShorten rnd maxLen orig.length orig i
        collisionRetry rnd maxLen vals orig fuel r.1 r.2
    else some (cand, i)

/-- `self.__dictionary[key] = name` for key `p` (dictionary as an
association list; the update touches exactly the binding of `p`). -/
def updKey (p v : CPName) (entries : List (CPName × CPName)) : List (CPName × CPName) :=
  entries.map (fun kv => if kv.1 = p then (kv.1, v) else kv)

/-- The per-problem-name loop body of `do_mapping` (lines 1008-1038),
iterated over the list of problem names: shorten, run the collision
loop against the current set of values, and store the result under the
problem name's key. -/
def processProblems (rnd : Nat → Nat) (maxLen fuel : Nat) :
    List CPName → List (CPName × CPName) → Nat → Option (List (CPName × CPName))
  | [], entries, _ => some entries
  | p :: rest, entries, i =>
    match collisionRetry rnd maxLen (entries.map Prod.snd) p fuel
        (threePassShorten maxLen p) i with
    | none => none
    | some r => processProblems rnd maxLen fuel rest (updKey p r.1 entries) r.2

/-- `ColumnNameMapping.do_mapping` over the registered feature names (in
registration order): the dictionary starts as the identity map built by
`add`, the problem names are the values longer than `max_len`, and each
is processed in turn.  `none` means the unbounded collision loop of the
source was still running after `fuel` retries. -/
def do_mapping (rnd : Nat → Nat) (maxLen fuel : Nat) (names : List CPName) :
    Option (List (CPName × CPName)) :=
  processProblems rnd maxLen fuel (names.filter (fun n => decide (maxLen < n.length)))
    (names.map (fun n => (n, n))) 0

/-- `ColumnNameMapping.__getitem__` after mapping: look the feature name
up in the dictionary. -/
def mappingResolve (entries : List (CPName × CPName)) (k : CPName) : Option CPName :=
  (entries.find? (fun kv => decide (kv.1 = k))).map Prod.snd

/-- A character that belongs to none of the three removal groups of
`do_mapping` (it can never be deleted by the three-pass shortening). -/
def isNonLetter (c : Char) : Bool :=
  !(decide (c ∈ vowels) || decide (c ∈ consonants) || decide (c ∈ uppercaseLetters))

/-- The number of characters of a name that no removal pass can delete. -/
def nonLetterCount (n : CPName) : Nat := n.countP isNonLetter

/-- A 71-character feature name: `'a'` followed by 70 underscores.  Its
only removable letter is the single `'a'`. -/
def c1name : CPName := 'a' :: List.replicate 70 '_'

/-- A registry on which the collision-retry loop of `do_mapping` can
never exit when `max_len = 1`: both one-character subsequences of
`"ab"` are already taken. -/
def c7names : List CPName := [['a'], ['b'], ['a', 'b']]

/-- `ExportToDatabase.get_column_name_mappings`: scan all feature names
in the measurements (given here as the list of object names with their
feature names, in iteration order), registering `object_feature` for
every non-ignored pair and, when the object is not `'Image'`, also
`agg_object_feature` for every name in `cpmeas.AGG_NAMES` (NOT just the
selected aggregates). -/
def get_column_name_mappings (objectFeatures : List (CPName × List CPName)) :
    List CPName :=
  objectFeatures.flatMap (fun of =>
    of.2.flatMap (fun f =>
      if ignore_feature of.1 f then []
      else
        featName of.1 f ::
          (if of.1 ≠ sImage then AGG_NAMES.map (fun a => aggFeatName a of.1 f)
           else [])))

/-! ## SchemaBuilder: `create_database_tables`

`create_database_tables` receives the column-definition catalog
(`pipeline.get_measurement_columns()`, a list of
`(object_name, feature, coltype)` triples), builds `col_dict` (the
catalog grouped by object name, skipping `Experiment`), the ordered
object-table and image-table column lists, and the position
dictionaries `object_col_order` / `image_col_order`.  Python
dictionaries with `Nat` values are modelled as association lists with
replace-or-append update (`dset`); `ob_tables` is a Python `set`, whose
iteration order is arbitrary — it is modelled as a duplicate-free list,
and nothing below depends on its order. -/

/-- A column definition `(object_name, feature, coltype)` as returned by
`get_measurement_columns`. -/
abbrev ColDef := CPName × CPName × CPName

/-- Python `dict` assignment `d[k] = v`: replace the binding if the key
is present, append otherwise. -/
def dset : List (CPName × Nat) → CPName → Nat → List (CPName × Nat)
  | [], k, v => [(k, v)]
  | kv :: m, k, v => if kv.1 = k then (k, v) :: m else kv :: dset m k v

/-- Python `d[k]` / `k in d` combined: the value bound to `k`, if any. -/
def dlookup : List (CPName × Nat) → CPName → Option Nat
  | [], _ => none
  | kv :: m, k => if kv.1 = k then some kv.2 else dlookup m k

/-- `max(d.values())` with 0 for an empty dictionary (the source only
applies it to dictionaries holding `ImageNumber: 0`). -/
def dmaxVal (m : List (CPName × Nat)) : Nat := m.foldl (fun a kv => max a kv.2) 0

/-- The column-order loops of the source: insert each name with the
running counter value, incrementing the counter at every entry
(`self.xxx_col_order[feature_name] = c; c += 1`). -/
def ordFold : List CPName → List (CPName × Nat) × Nat → List (CPName × Nat) × Nat
  | [], st => st
  | n :: ns, st => ordFold ns (dset st.1 n st.2, st.2 + 1)

/-- One step of building `col_dict`: append the triple to its object's
group, creating the group on first sight (lines 399-404). -/
def addColGroup : List (CPName × List ColDef) → ColDef → List (CPName × List ColDef)
  | [], c => [(c.1, [c])]
  | g :: gs, c => if g.1 = c.1 then (g.1, g.2 ++ [c]) :: gs else g :: addColGroup gs c

/-- `self.col_dict`: the catalog grouped by object name, skipping
`Experiment` entries. -/
def colDict (cdefs : List ColDef) : List (CPName × List ColDef) :=
  cdefs.foldl (fun acc c => if c.1 = sExperiment then acc else addColGroup acc c) []

/-- `ob_tables = set(obname for ... if obname != IMAGE and != EXPERIMENT)`
(line 412), as a duplicate-free list. -/
def obTables (cdefs : List ColDef) : List CPName :=
  (cdefs.filterMap (fun c =>
    if c.1 ≠ sImage ∧ c.1 ≠ sExperiment then some c.1 else none)).dedup

/-- The object-table loop nest (lines 419-430) in iteration order: for
each object table, every catalog entry of that object that survives
`ignore_feature`. -/
def objectEntries (cdefs : List ColDef) : List ColDef :=
  (obTables cdefs).flatMap (fun ob =>
    cdefs.filter (fun c => decide (c.1 = ob) && !ignore_feature c.1 c.2.1))

/-- The ordered object-table column list: `ImageNumber`, `ObjectNumber`,
then one column per retained (object, feature) catalog entry. -/
def objectColumnNames (cdefs : List ColDef) : List CPName :=
  sImageNumber :: sObjectNumber :: (objectEntries cdefs).map (fun c => featName c.1 c.2.1)

/-- `self.object_col_order`: positions start at 2 (line 418). -/
def object_col_order (cdefs : List ColDef) : List (CPName × Nat) :=
  (ordFold ((objectEntries cdefs).map (fun c => featName c.1 c.2.1)) ([], 2)).1

/-- `agg_column_defs` (lines 423-427): for every retained object entry,
one synthetic Image-class Float column per selected aggregate name. -/
def agg_column_defs (cdefs : List ColDef) (active : List CPName) : List ColDef :=
  (objectEntries cdefs).flatMap (fun c =>
    active.map (fun a => (sImage, aggFeatName a c.1 c.2.1, FLOATty)))

/-- The ordered image-table column list after `ImageNumber` (lines
441-449): the Image-class entries of `column_defs + agg_column_defs`
surviving `ignore_feature`; an entry whose feature is one of the
aggregate feature names is emitted under the bare feature name,
otherwise under `Image_feature`. -/
def imageColumnNames (cdefs : List ColDef) (active : List CPName) : List CPName :=
  ((cdefs ++ agg_column_defs cdefs active).filter
      (fun c => decide (c.1 = sImage) && !ignore_feature c.1 c.2.1)).map
    (fun c =>
      if c.2.1 ∈ (agg_column_defs cdefs active).map (fun d => d.2.1) then c.2.1
      else featName c.1 c.2.1)

/-- The full image-table column list: `ImageNumber` first. -/
def imageTableColumns (cdefs : List ColDef) (active : List CPName) : List CPName :=
  sImageNumber :: imageColumnNames cdefs active

/-- `self.image_col_order`: positions start at 1 (line 440). -/
def image_col_order (cdefs : List ColDef) (active : List CPName) : List (CPName × Nat) :=
  (ordFold (imageColumnNames cdefs active) ([], 1)).1

/-- The claim's count of retained Image-class features: catalog entries
of class Image that survive the feature filter (stated from the spec's
words, for comparison with the source-derived column lists). -/
def retainedImageFeatureCount (cdefs : List ColDef) : Nat :=
  (cdefs.filter (fun c => decide (c.1 = sImage) && !ignore_feature c.1 c.2.1)).length

/-- The claim's count of retained (object-class, feature) pairs: catalog
entries of a non-Image class that survive the feature filter (stated
from the spec's words, for comparison with the source-derived column
lists). -/
def retainedObjectPairCount (cdefs : List ColDef) : Nat :=
  (cdefs.filter (fun c => decide (c.1 ≠ sImage) && !ignore_feature c.1 c.2.1)).length

/-! ## Measurement values and row cells

`measurements.get_measurement` returns Python values: numpy arrays
(unwrapped to their first element by both writers), floats (possibly
non-finite), ints, or strings.  A float is `mfloat finite payload`; the
payload is only meaningful when `finite = true` and the flag models
`np.isfinite`.  Per-object vectors are lists of `FVal`. -/

inductive MVal : Type
  | mint : Int → MVal
  | mfloat : Bool → Int → MVal
  | mstr : CPName → MVal
  | marr : MVal → MVal
  deriving DecidableEq

/-- `if isinstance(value, np.ndarray): value = value[0]` (applied once,
not recursively, in both writers). -/
def unwrapArr : MVal → MVal
  | MVal.marr v => v
  | v => v

/-- `int(value)` as used for the `Count` update.  The `Count`
measurements are integral; for a non-finite float (which Python would
refuse to convert, and which the relational path has already coerced
away) the model returns 0. -/
def toInt : MVal → Int
  | MVal.mint n => n
  | MVal.mfloat _ x => x
  | MVal.mstr _ => 0
  | MVal.marr _ => 0

/-- `write_data_to_db` lines 705-708: unwrap an array, then coerce a
non-finite float to the integer 0. -/
def dbImageCoerce (v : MVal) : MVal :=
  match unwrapArr v with
  | MVal.mfloat false _ => MVal.mint 0
  | w => w

/-- `write_data` lines 619-622: unwrap an array, then escape a string
through the external `MySQLdb.escape_string` (injected as `esc`).
There is NO finiteness check on this path. -/
def fileImageCoerce (esc : CPName → CPName) (v : MVal) : MVal :=
  match unwrapArr v with
  | MVal.mstr s => MVal.mstr (esc s)
  | w => w

/-- One entry of a per-object measurement vector: a float with its
`np.isfinite` status. -/
structure FVal : Type where
  finite : Bool
  val : Int
  deriving DecidableEq

def fzero : FVal := ⟨true, 0⟩

/-- `values[np.logical_not(np.isfinite(values))] = 0` on one entry. -/
def sanitizeF (x : FVal) : FVal := if x.finite then x else fzero

def fvalM (x : FVal) : MVal := MVal.mfloat x.finite x.val

/-- The two classes of count-mismatch diagnostics written to stderr
("too few/too many measurements for %s in image set #%d, got %d,
expected %d"), carrying the reported actual and expected counts. -/
inductive WarnKind : Type
  | tooFew : WarnKind
  | tooMany : WarnKind
  deriving DecidableEq

structure CountWarning : Type where
  kind : WarnKind
  got : Nat
  expected : Nat
  deriving DecidableEq

/-- `write_data_to_db` lines 752-762: sanitize the vector, then pad an
explicit zero array (too few) or truncate (too many), warning in either
case. -/
def reconcile_db (maxCount : Nat) (raw : List FVal) : List FVal × Option CountWarning :=
  let values := raw.map sanitizeF
  let n := values.length
  if n < maxCount then
    (values ++ List.replicate (maxCount - n) fzero, some ⟨WarnKind.tooFew, n, maxCount⟩)
  else if maxCount < n then
    (values.take maxCount, some ⟨WarnKind.tooMany, n, maxCount⟩)
  else (values, none)

/-- `object_rows[:nvalues, col] = values`: overwrite the first `|vs|`
entries of the column (numpy clips an over-long slice to the array). -/
def setFirst : List FVal → List FVal → List FVal
  | col, [] => col
  | [], _ => []
  | _ :: cs, v :: vs => v :: setFirst cs vs

/-- `write_data` lines 660-668: sanitize, truncate when too long, warn
on either mismatch, and write into a zero-initialised column of
`max_count` entries (too-few vectors leave trailing zeros from the
`np.zeros` initialisation). -/
def reconcile_file (maxCount : Nat) (raw : List FVal) : List FVal × Option CountWarning :=
  let values := raw.map sanitizeF
  let n := values.length
  let values2 := if maxCount < n then values.take maxCount else values
  (setFirst (List.replicate maxCount fzero) values2,
    if n < maxCount then some ⟨WarnKind.tooFew, n, maxCount⟩
    else if maxCount < n then some ⟨WarnKind.tooMany, n, maxCount⟩
    else none)

/-! ## The relational writer `write_data_to_db`

Inputs: the per-run structures built by `create_database_tables`
(`image_col_order`, `object_col_order`, `col_dict`), the settings, and
the measurement source (`get_measurement` for Image features and object
vectors, `compute_aggregate_measurements` — all external collaborators,
injected as functions).  The output is the assembled image row (cells
`(value, coltype, colname)`, `None` where never written) and the
object-row matrix.  A missing dictionary key at an unguarded Python
`dict` access (a `KeyError` crash in the source) is `none`.  The SQL
statement text itself (lines 766-783) is outside the model except for
the 25-row batching, modelled separately by `batchRows`. -/

/-- `'Count' in feature_name`. -/
def hasCountSub (n : CPName) : Bool := decide (List.IsInfix "Count".data n)

abbrev ImageCell := MVal × CPName × CPName

abbrev ObjCell := MVal × CPName

/-- The measurement source offered by the workspace (external
collaborator): scalar Image measurements, per-object vectors, and
`compute_aggregate_measurements` for the selected aggregate names. -/
structure MeasSource : Type where
  imageMeas : CPName → MVal
  objMeas : CPName → CPName → List FVal
  aggMeas : List CPName → List (CPName × MVal)

/-- `self.col_dict[cpmeas.IMAGE]` guarded by `if IMAGE in col_dict`. -/
def imageColsOf (cdefs : List ColDef) : List ColDef :=
  match (colDict cdefs).find? (fun g => decide (g.1 = sImage)) with
  | some g => g.2
  | none => []

/-- Lines 697-713: start from `[None]*(len(image_col_order)+1)` with
cell 0 holding the image number, then for each Image column fetch,
unwrap and coerce the value, store it at its `image_col_order` position
(when the name is known there), and fold the running
`max_count = max(max_count, int(value))` over features whose name
contains `Count`. -/
def dbImageFill (order : List (CPName × Nat)) (cols : List ColDef)
    (ms : CPName → MVal) (imageNumber : Int) : List (Option ImageCell) × Int :=
  cols.foldl
    (fun st c =>
      match dlookup order (featName sImage c.2.1) with
      | some p =>
        (st.1.set p (some (dbImageCoerce (ms c.2.1), c.2.2, featName sImage c.2.1)),
          if hasCountSub (featName sImage c.2.1) then max st.2 (toInt (dbImageCoerce (ms c.2.1)))
          else st.2)
      | none => st)
    ((List.replicate (order.length + 1) (none : Option ImageCell)).set 0
        (some (MVal.mint imageNumber, INTEGERty, sImageNumber)), 0)

/-- The write positions of the `max_count == 0` branch (lines 721-730):
the loop nest `for obname ≠ IMAGE in col_dict: for col: for agg_name:`
flattened, keeping only the names present in `image_col_order`. -/
def aggZeroWrites (cd : List (CPName × List ColDef)) (active : List CPName)
    (order : List (CPName × Nat)) : List (Nat × CPName) :=
  cd.flatMap (fun g =>
    if g.1 = sImage then []
    else g.2.flatMap (fun c =>
      active.filterMap (fun a =>
        (dlookup order (aggFeatName a g.1 c.2.1)).map
          (fun p => (p, aggFeatName a g.1 c.2.1)))))

/-- Execute the `max_count == 0` branch's writes
`image_row[pos] = (0, COLTYPE_FLOAT, feature_name)` in loop order. -/
def dbAggZeroFill (row : List (Option ImageCell)) (cd : List (CPName × List ColDef))
    (active : List CPName) (order : List (CPName × Nat)) : List (Option ImageCell) :=
  (aggZeroWrites cd active order).foldl
    (fun r w => r.set w.1 (some (MVal.mint 0, FLOATty, w.2))) row

/-- Lines 734-739: copy `compute_aggregate_measurements` results into
the image row at their `image_col_order` positions (membership
checked). -/
def dbAggFill (order : List (CPName × Nat)) (aggs : List (CPName × MVal))
    (row : List (Option ImageCell)) : List (Option ImageCell) :=
  aggs.foldl
    (fun r kv =>
      match dlookup order kv.1 with
      | some p => r.set p (some (kv.2, FLOATty, kv.1))
      | none => r) row

/-- Lines 741-744: `np.zeros((max_count, n+2), dtype=object)` with the
image number and 1-based object numbers pre-filled; never-written cells
are `none`. -/
def dbInitialObjectRows (mc ncols : Nat) (imageNumber : Int) :
    List (List (Option ObjCell)) :=
  (List.range mc).map (fun i =>
    ((List.replicate (ncols + 2) (none : Option ObjCell)).set 0
        (some (MVal.mint imageNumber, INTEGERty))).set 1
      (some (MVal.mint (Int.ofNat i + 1), INTEGERty)))

/-- Lines 750-764, inner loop: write one object column per catalog
entry of the object, at its `object_col_order` position; the unguarded
`self.object_col_order[feature_name]` access makes a missing key a
failure (`none`). -/
def dbScatterCols (ocd : List (CPName × Nat)) (ms : MeasSource) (mc : Nat)
    (ob : CPName) :
    List ColDef → List (List (Option ObjCell)) → Option (List (List (Option ObjCell)))
  | [], rows => some rows
  | c :: cs, rows =>
    match dlookup ocd (featName ob c.2.1) with
    | none => none
    | some p =>
      dbScatterCols ocd ms mc ob cs
        (List.zipWith (fun row v => row.set p (some (fvalM v, FLOATty))) rows
          (reconcile_db mc (ms.objMeas ob c.2.1)).1)

/-- Lines 747-764, outer loop over `col_dict`, skipping `Image` and
`Experiment`. -/
def dbScatterAll (ocd : List (CPName × Nat)) (ms : MeasSource) (mc : Nat) :
    List (CPName × List ColDef) → List (List (Option ObjCell)) →
      Option (List (List (Option ObjCell)))
  | [], rows => some rows
  | g :: gs, rows =>
    if g.1 = sImage ∨ g.1 = sExperiment then dbScatterAll ocd ms mc gs rows
    else
      match dbScatterCols ocd ms mc g.1 g.2 rows with
      | none => none
      | some rows2 => dbScatterAll ocd ms mc gs rows2

/-- `ExportToDatabase.write_data_to_db` (lines 676-789) up to the SQL
formatting: assemble the image row and the object rows for one image
set. -/
def write_data_to_db (cdefs : List ColDef) (wm wmed ws : Bool) (ms : MeasSource)
    (imageNumber : Int) :
    Option (List (Option ImageCell) × List (List (Option ObjCell))) :=
  let active := agg_names wm wmed ws
  let order := image_col_order cdefs active
  let st := dbImageFill order (imageColsOf cdefs) ms.imageMeas imageNumber
  if st.2 = 0 then
    some (dbAggZeroFill st.1 (colDict cdefs) active order, [])
  else
    match dbScatterAll (object_col_order cdefs) ms st.2.toNat (colDict cdefs)
        (dbInitialObjectRows st.2.toNat (object_col_order cdefs).length imageNumber) with
    | none => none
    | some rows => some (dbAggFill order (ms.aggMeas active) st.1, rows)

/-! ## The file writer `write_data`

Inputs: the measurement object-name and feature-name lists, the
`per_image` / `per_object` index maps returned by
`write_mysql_table_defs`, the settings, the measurement source and the
escape function.  Python raises `KeyError` on a missing index
(`image_row[per_image[feature_name]]` is unguarded on this path), hence
the `Option`. -/

/-- The column-index maps built by `write_mysql_table_defs` (lines
463-520): `per_image` starts at `{ImageNumber: 0}` and numbers the
retained Image catalog features, then `agg_object_feature` for every
selected aggregate over the measurements' retained object features;
`per_object` starts at `{ImageNumber: 0, ObjectNumber: 1}`. -/
def perImageMap (cdefs : List ColDef) (objectNames : List CPName)
    (featNames : CPName → List CPName) (active : List CPName) : List (CPName × Nat) :=
  (ordFold
    (((cdefs.filter (fun c => decide (c.1 = sImage) && !ignore_feature c.1 c.2.1)).map
        (fun c => featName c.1 c.2.1)) ++
      active.flatMap (fun a =>
        objectNames.flatMap (fun o =>
          if o = sImage then []
          else (featNames o).filterMap (fun f =>
            if ignore_feature o f then none else some (aggFeatName a o f)))))
    (dset [] sImageNumber 0, 1)).1

def perObjectMap (objectNames : List CPName) (featNames : CPName → List CPName) :
    List (CPName × Nat) :=
  (ordFold
    (objectNames.flatMap (fun o =>
      if o = sImage then []
      else (featNames o).filterMap (fun f =>
        if ignore_feature o f then none else some (featName o f))))
    (dset (dset [] sImageNumber 0) sObjectNumber 1, 2)).1

/-- Lines 613-625: the Image-feature loop of `write_data` — unwrap and
escape (but do NOT coerce non-finite values), store at the `per_image`
position, and fold `max_count` over `Count` features. -/
def fileImageLoop (perImage : List (CPName × Nat)) (esc : CPName → CPName)
    (ms : CPName → MVal) :
    List CPName → List (Option MVal) → Int → Option (List (Option MVal) × Int)
  | [], row, mc => some (row, mc)
  | f :: fs, row, mc =>
    if ignore_feature sImage f then fileImageLoop perImage esc ms fs row mc
    else
      match dlookup perImage (featName sImage f) with
      | none => none
      | some p =>
        fileImageLoop perImage esc ms fs (row.set p (some (fileImageCoerce esc (ms f))))
          (if hasCountSub (featName sImage f) then max mc (toInt (fileImageCoerce esc (ms f)))
           else mc)

/-- The aggregate names written to 0 in the `max_count == 0` branch of
`write_data` (lines 627-635), in loop order (object, feature, aggregate
innermost). -/
def fileAggZeroNames (objectNames : List CPName) (featNames : CPName → List CPName)
    (active : List CPName) : List CPName :=
  objectNames.flatMap (fun o =>
    if o = sImage then []
    else (featNames o).flatMap (fun f =>
      if ignore_feature o f then []
      else active.map (fun a => aggFeatName a o f)))

/-- `image_row[per_image[feature_name]] = 0` for each name, failing on a
missing key. -/
def setAllZero (perImage : List (CPName × Nat)) :
    List CPName → List (Option MVal) → Option (List (Option MVal))
  | [], row => some row
  | n :: ns, row =>
    match dlookup perImage n with
    | none => none
    | some p => setAllZero perImage ns (row.set p (some (MVal.mint 0)))

/-- Lines 640-643: copy the aggregate measurements into the image row at
their `per_image` positions (unguarded dictionary access). -/
def fileAggFill (perImage : List (CPName × Nat)) :
    List (CPName × MVal) → List (Option MVal) → Option (List (Option MVal))
  | [], row => some row
  | kv :: rest, row =>
    match dlookup perImage kv.1 with
    | none => none
    | some p => fileAggFill perImage rest (row.set p (some kv.2))

/-- Lines 653-668: write one column per retained measurement feature of
the object into the (zero-initialised, float-valued) object rows. -/
def fileScatterCols (perObject : List (CPName × Nat)) (ms : MeasSource) (mc : Nat)
    (o : CPName) : List CPName → List (List FVal) → Option (List (List FVal))
  | [], rows => some rows
  | f :: fs, rows =>
    if ignore_feature o f then fileScatterCols perObject ms mc o fs rows
    else
      match dlookup perObject (featName o f) with
      | none => none
      | some p =>
        fileScatterCols perObject ms mc o fs
          (List.zipWith (fun row v => row.set p v) rows
            (reconcile_file mc (ms.objMeas o f)).1)

def fileScatterAll (perObject : List (CPName × Nat)) (featNames : CPName → List CPName)
    (ms : MeasSource) (mc : Nat) :
    List CPName → List (List FVal) → Option (List (List FVal))
  | [], rows => some rows
  | o :: os, rows =>
    if o = sImage then fileScatterAll perObject featNames ms mc os rows
    else
      match fileScatterCols perObject ms mc o (featNames o) rows with
      | none => none
      | some rows2 => fileScatterAll perObject featNames ms mc os rows2

/-- `ExportToDatabase.write_data` (lines 583-673) for one image set:
returns the image row cells and the object rows that are handed to the
two csv writers. -/
def write_data_assemble (objectNames : List CPName) (featNames : CPName → List CPName)
    (perImage perObject : List (CPName × Nat)) (wm wmed ws : Bool)
    (ms : MeasSource) (esc : CPName → CPName) (imageNumber : Int) :
    Option (List (Option MVal) × List (List FVal)) :=
  let active := agg_names wm wmed ws
  match dlookup perImage sImageNumber with
  | none => none
  | some p0 =>
    match fileImageLoop perImage esc ms.imageMeas (featNames sImage)
        ((List.replicate (dmaxVal perImage + 1) (none : Option MVal)).set p0
          (some (MVal.mint imageNumber))) 0 with
    | none => none
    | some st =>
      if st.2 = 0 then
        match setAllZero perImage (fileAggZeroNames objectNames featNames active) st.1 with
        | none => none
        | some row1 => some (row1, [])
      else
        match fileAggFill perImage (ms.aggMeas active) st.1 with
        | none => none
        | some row1 =>
          match dlookup perObject sImageNumber, dlookup perObject sObjectNumber with
          | some pi, some po =>
            match fileScatterAll perObject featNames ms st.2.toNat objectNames
                ((List.range st.2.toNat).map (fun i =>
                  ((List.replicate (dmaxVal perObject + 1) fzero).set pi
                      ⟨true, imageNumber⟩).set po ⟨true, Int.ofNat i + 1⟩)) with
            | none => none
            | some rows => some (row1, rows)
          | _, _ => none

/-! ## The 25-row batching of the relational sink -/

/-- Lines 784-788: `for i in range(0, len(object_rows), 25):
my_rows = object_rows[i:min(i+25, len(object_rows))]` — the successive
25-row slices handed to `cursor.executemany`, in order.  The fuel is
the list length, which always suffices (each step drops 25 ≥ 1
elements). -/
def batchGo {α : Type} : Nat → List α → List (List α)
  | _, [] => []
  | 0, _ => []
  | fuel + 1, rows => rows.take 25 :: batchGo fuel (rows.drop 25)

def batchRows {α : Type} (rows : List α) : List (List α) := batchGo rows.length rows

/-! ## The csv quoting policies of the file sink

`write_data` builds `csv.writer(fid_per_image,
quoting=csv.QUOTE_NONNUMERIC)` for the image file (line 596) and a
default `csv.writer(fid_per_object)` — `QUOTE_MINIMAL` — for the object
file (line 598).  The `csv` module is Python's standard library, not
part of this repository; its documented semantics are modelled here:
`QUOTE_NONNUMERIC` quotes exactly the non-numeric fields,
`QUOTE_MINIMAL` quotes only fields containing the delimiter, the quote
character or a line break; a quote character inside a quoted field is
doubled. -/

inductive CsvField : Type
  | num : Int → CsvField
  | text : CPName → CsvField
  deriving DecidableEq

def needsQuoting (s : CPName) : Bool :=
  s.any (fun c =>
    decide (c = ',') || decide (c = '"') || decide (c = '\n') || decide (c = '\r'))

def quoteCsv (s : CPName) : CPName :=
  '"' :: (s.flatMap (fun c => if c = '"' then ['"', '"'] else [c])) ++ ['"']

def intChars (n : Int) : CPName := (toString n).data

/-- Modelled from the spec: Python's `csv.QUOTE_NONNUMERIC` writer —
"quote all non-numeric fields" (numeric fields are written bare). -/
def writeFieldNonnumeric : CsvField → CPName
  | CsvField.num n => intChars n
  | CsvField.text s => quoteCsv s

/-- Modelled from the spec: Python's default `csv.QUOTE_MINIMAL` writer —
quote a field only when it contains a special character. -/
def writeFieldMinimal : CsvField → CPName
  | CsvField.num n => intChars n
  | CsvField.text s => if needsQuoting s then quoteCsv s else s

/-- The image-file writer of `write_data` (line 596). -/
def imageCsvField : CsvField → CPName := writeFieldNonnumeric

/-- The object-file writer of `write_data` (line 598). -/
def objectCsvField : CsvField → CPName := writeFieldMinimal

/-- A two-entry catalog for concrete witnesses: one Image `Count`
feature and one object feature. -/
def c2defs : List ColDef :=
  [(sImage, "Count_Nuclei".data, INTEGERty), ("Nuclei".data, "Area".data, FLOATty)]

/-- The measurement feature names of the witness instance. -/
def c2feats : CPName → List CPName :=
  fun o => if o = sImage then ["Count_Nuclei".data] else ["Area".data]

/-- A measurement source reporting a zero object count. -/
def c2meas : MeasSource := ⟨fun _ => MVal.mint 0, fun _ _ => [], fun _ => []⟩

/-! ## Lemmas about the removal passes -/

theorem dropGroup_le (grp : List Char) (q : Nat) (rev : List Char) :
    (dropGroup grp q rev).2 ≤ q := by
  induction rev generalizing q with
  | nil => cases q <;> simp [dropGroup]
  | cons c rest ih =>
    cases q with
    | zero => simp [dropGroup]
    | succ q =>
      by_cases hc : c ∈ grp
      · rcases hr : dropGroup grp q rest with ⟨r, n⟩
        have h := ih q
        rw [hr] at h
        simp only [dropGroup, if_pos hc, hr]
        omega
      · rcases hr : dropGroup grp (q + 1) rest with ⟨r, n⟩
        have h := ih (q + 1)
        rw [hr] at h
        simp only [dropGroup, if_neg hc, hr]
        exact h

theorem dropGroup_sublist (grp : List Char) (q : Nat) (rev : List Char) :
    (dropGroup grp q rev).1.Sublist rev := by
  induction rev generalizing q with
  | nil => cases q <;> simp [dropGroup]
  | cons c rest ih =>
    cases q with
    | zero => simp [dropGroup]
    | succ q =>
      by_cases hc : c ∈ grp
      · rcases hr : dropGroup grp q rest with ⟨r, n⟩
        have h := ih q
        rw [hr] at h
        simp only [dropGroup, if_pos hc, hr]
        exact h.cons c
      · rcases hr : dropGroup grp (q + 1) rest with ⟨r, n⟩
        have h := ih (q + 1)
        rw [hr] at h
        simp only [dropGroup, if_neg hc, hr]
        exact h.cons₂ c

theorem dropGroup_length (grp : List Char) (q : Nat) (rev : List Char) :
    (dropGroup grp q rev).1.length + (dropGroup grp q rev).2 = rev.length := by
  induction rev generalizing q with
  | nil => cases q <;> simp [dropGroup]
  | cons c rest ih =>
    cases q with
    | zero => simp [dropGroup]
    | succ q =>
      by_cases hc : c ∈ grp
      · rcases hr : dropGroup grp q rest with ⟨r, n⟩
        have h := ih q
        rw [hr] at h
        simp only [dropGroup, if_pos hc, hr]
        simp at h ⊢
        omega
      · rcases hr : dropGroup grp (q + 1) rest with ⟨r, n⟩
        have h := ih (q + 1)
        rw [hr] at h
        simp only [dropGroup, if_neg hc, hr]
        simp at h ⊢
        omega

theorem dropGroup_under_quota (grp : List Char) (q : Nat) (rev : List Char)
    (h : (dropGroup grp q rev).2 < q) :
    ∀ c ∈ (dropGroup grp q rev).1, c ∉ grp := by
  induction rev generalizing q with
  | nil =>
    cases q <;> simp [dropGroup]
  | cons c rest ih =>
    cases q with
    | zero => simp [dropGroup] at h
    | succ q =>
      by_cases hc : c ∈ grp
      · rcases hr : dropGroup grp q rest with ⟨r, n⟩
        rw [show dropGroup grp (q+1) (c :: rest)
              = match dropGroup grp q rest with | (r, n) => (r, n + 1) by
            simp [dropGroup, hc], hr] at h ⊢
        simp at h ⊢
        have := ih q
        rw [hr] at this
        exact this (by omega)
      · rcases hr : dropGroup grp (q + 1) rest with ⟨r, n⟩
        rw [show dropGroup grp (q+1) (c :: rest)
              = match dropGroup grp (q+1) rest with | (r, n) => (c :: r, n) by
            simp [dropGroup, hc], hr] at h ⊢
        simp at h ⊢
        refine ⟨hc, ?_⟩
        have := ih (q + 1)
        rw [hr] at this
        exact this h

theorem threePassShorten_length (maxLen : Nat) (name : CPName)
    (h : maxLen < name.length) :
    (threePassShorten maxLen name).length ≤ max maxLen (nonLetterCount name) := by
  unfold threePassShorten
  set Q := name.length - maxLen with hQ
  set rev := name.reverse with hrev
  rcases h1 : dropGroup vowels Q rev with ⟨r1, n1⟩
  rcases h2 : dropGroup consonants (Q - n1) r1 with ⟨r2, n2⟩
  rcases h3 : dropGroup uppercaseLetters (Q - n1 - n2) r2 with ⟨r3, n3⟩
  simp only [h1, h2, h3, List.length_reverse]
  have hlen1 := dropGroup_length vowels Q rev
  have hlen2 := dropGroup_length consonants (Q - n1) r1
  have hlen3 := dropGroup_length uppercaseLetters (Q - n1 - n2) r2
  rw [h1] at hlen1; rw [h2] at hlen2; rw [h3] at hlen3
  simp only at hlen1 hlen2 hlen3
  have hq1 := dropGroup_le vowels Q rev
  have hq2 := dropGroup_le consonants (Q - n1) r1
  have hq3 := dropGroup_le uppercaseLetters (Q - n1 - n2) r2
  rw [h1] at hq1; rw [h2] at hq2; rw [h3] at hq3
  simp only at hq1 hq2 hq3
  have hrevlen : rev.length = name.length := by simp [hrev]
  by_cases hfull : n1 + n2 + n3 = Q
  · -- the three passes removed the full excess: result length is exactly maxLen
    have : r3.length = maxLen := by omega
    omega
  · -- the quota was not met: every letter has been removed, so the result
    -- consists of non-letter characters only
    have hn1 : n1 < Q := by omega
    have hn2 : n2 < Q - n1 := by omega
    have hn3 : n3 < Q - n1 - n2 := by omega
    have hv : ∀ c ∈ r1, c ∉ vowels := by
      have := dropGroup_under_quota vowels Q rev (by rw [h1]; exact hn1)
      rw [h1] at this; exact this
    have hcons : ∀ c ∈ r2, c ∉ consonants := by
      have := dropGroup_under_quota consonants (Q - n1) r1 (by rw [h2]; exact hn2)
      rw [h2] at this; exact this
    have hupp : ∀ c ∈ r3, c ∉ uppercaseLetters := by
      have := dropGroup_under_quota uppercaseLetters (Q - n1 - n2) r2 (by rw [h3]; exact hn3)
      rw [h3] at this; exact this
    have hs1 : r1.Sublist rev := by
      have := dropGroup_sublist vowels Q rev; rw [h1] at this; exact this
    have hs2 : r2.Sublist r1 := by
      have := dropGroup_sublist consonants (Q - n1) r1; rw [h2] at this; exact this
    have hs3 : r3.Sublist r2 := by
      have := dropGroup_sublist uppercaseLetters (Q - n1 - n2) r2; rw [h3] at this
      exact this
    have hall : ∀ c ∈ r3, isNonLetter c = true := by
      intro c hc
      have hc2 := hs3.mem hc
      have hc1 := hs2.mem hc2
      simp only [isNonLetter, Bool.not_eq_true', Bool.or_eq_false_iff,
        decide_eq_false_iff_not]
      exact ⟨⟨hv c hc1, hcons c hc2⟩, hupp c hc⟩
    have hcount : r3.length = r3.countP isNonLetter := by
      exact (List.countP_eq_length.mpr hall).symm
    have hle : r3.countP isNonLetter ≤ rev.countP isNonLetter :=
      ((hs3.trans hs2).trans hs1).countP_le isNonLetter
    have hrevc : rev.countP isNonLetter = nonLetterCount name := by
      simp [hrev, nonLetterCount]
    omega

/-! ## Lemmas about the random fallback and the collision loop -/

theorem randShorten_length (rnd : Nat → Nat) (maxLen : Nat) :
    ∀ (fuel : Nat) (name : CPName) (i : Nat),
      name.length - maxLen ≤ fuel →
      (randShorten rnd maxLen fuel name i).1.length ≤ maxLen := by
  intro fuel
  induction fuel with
  | zero =>
    intro name i h
    simp only [randShorten]
    omega
  | succ fuel ih =>
    intro name i h
    by_cases hle : name.length ≤ maxLen
    · simp [randShorten, hle]
    · have hpos : 0 < name.length := by omega
      have hidx : rnd i % name.length < name.length := Nat.mod_lt _ hpos
      have herase : (name.eraseIdx (rnd i % name.length)).length = name.length - 1 := by
        rw [List.length_eraseIdx_of_lt hidx]
      simp only [randShorten, if_neg hle]
      exact ih _ (i + 1) (by omega)

theorem collisionRetry_not_mem (rnd : Nat → Nat) (maxLen : Nat) (vals : List CPName)
    (orig : CPName) :
    ∀ (fuel : Nat) (cand : CPName) (i : Nat) (r : CPName × Nat),
      collisionRetry rnd maxLen vals orig fuel cand i = some r → r.1 ∉ vals := by
  intro fuel
  induction fuel with
  | zero =>
    intro cand i r h
    by_cases hc : cand ∈ vals
    · simp [collisionRetry, hc] at h
    · simp only [collisionRetry, if_neg hc] at h
      injection h with h
      subst h
      simpa using hc
  | succ fuel ih =>
    intro cand i r h
    by_cases hc : cand ∈ vals
    · simp only [collisionRetry, if_pos hc] at h
      exact ih _ _ _ h
    · simp only [collisionRetry, if_neg hc] at h
      injection h with h
      subst h
      simpa using hc

theorem collisionRetry_length (rnd : Nat → Nat) (maxLen : Nat) (vals : List CPName)
    (orig : CPName) :
    ∀ (fuel : Nat) (cand : CPName) (i : Nat) (r : CPName × Nat),
      collisionRetry rnd maxLen vals orig fuel cand i = some r →
      r.1 = cand ∨ r.1.length ≤ maxLen := by
  intro fuel
  induction fuel with
  | zero =>
    intro cand i r h
    by_cases hc : cand ∈ vals
    · simp [collisionRetry, hc] at h
    · simp only [collisionRetry, if_neg hc] at h
      injection h with h
      subst h
      left; rfl
  | succ fuel ih =>
    intro cand i r h
    by_cases hc : cand ∈ vals
    · simp only [collisionRetry, if_pos hc] at h
      rcases ih _ _ _ h with heq | hle
      · right
        rw [heq]
        exact randShorten_length rnd maxLen orig.length orig i (by omega)
      · right; exact hle
    · simp only [collisionRetry, if_neg hc] at h
      injection h with h
      subst h
      left; rfl

/-! ## Lemmas about the dictionary update -/

theorem updKey_map_fst (p v : CPName) (entries : List (CPName × CPName)) :
    (updKey p v entries).map Prod.fst = entries.map Prod.fst := by
  induction entries with
  | nil => rfl
  | cons kv es ih =>
    by_cases h : kv.1 = p <;> simp [updKey, h] at ih ⊢ <;> exact ih

theorem updKey_of_not_key (p v : CPName) (entries : List (CPName × CPName))
    (h : ∀ kv ∈ entries, kv.1 ≠ p) : updKey p v entries = entries := by
  induction entries with
  | nil => rfl
  | cons kv es ih =>
    have h1 : kv.1 ≠ p := h kv (by simp)
    simp only [updKey, List.map_cons, if_neg h1]
    rw [show List.map (fun kv => if kv.1 = p then (kv.1, v) else kv) es
          = updKey p v es from rfl,
      ih (fun x hx => h x (by simp [hx]))]

theorem mem_snd_updKey (p v : CPName) (entries : List (CPName × CPName))
    (x : CPName) (h : x ∈ (updKey p v entries).map Prod.snd) :
    x = v ∨ x ∈ entries.map Prod.snd := by
  induction entries with
  | nil => simp [updKey] at h
  | cons kv es ih =>
    simp only [updKey, List.map_cons, List.mem_cons] at h
    rcases h with h | h
    · by_cases hk : kv.1 = p
      · simp [hk] at h
        left; exact h
      · simp [hk] at h
        right; simp [h]
    · rcases ih h with h | h
      · left; exact h
      · right; simp [h]

theorem mem_updKey_of_ne (p v : CPName) (entries : List (CPName × CPName))
    (kv : CPName × CPName) (hmem : kv ∈ entries) (hne : kv.1 ≠ p) :
    kv ∈ updKey p v entries := by
  have : kv = (if kv.1 = p then (kv.1, v) else kv) := by simp [hne]
  rw [this]
  exact List.mem_map_of_mem _ hmem

theorem mem_updKey_elim (p v : CPName) (entries : List (CPName × CPName))
    (kv : CPName × CPName) (h : kv ∈ updKey p v entries) :
    (kv.2 = v ∧ kv.1 = p ∧ kv.1 ∈ entries.map Prod.fst) ∨ (kv ∈ entries ∧ kv.1 ≠ p) := by
  simp only [updKey, List.mem_map] at h
  obtain ⟨kv0, hkv0, heq⟩ := h
  by_cases hk : kv0.1 = p
  · rw [if_pos hk] at heq
    left
    refine ⟨by rw [← heq], by rw [← heq]; exact hk, ?_⟩
    rw [← heq]
    show kv0.1 ∈ entries.map Prod.fst
    exact List.mem_map_of_mem Prod.fst hkv0
  · rw [if_neg hk] at heq
    right
    rw [← heq]
    exact ⟨hkv0, hk⟩

theorem nodup_snd_updKey (p v : CPName) (entries : List (CPName × CPName))
    (hk : (entries.map Prod.fst).Nodup)
    (hv : (entries.map Prod.snd).Nodup)
    (hnv : v ∉ entries.map Prod.snd) :
    ((updKey p v entries).map Prod.snd).Nodup := by
  induction entries with
  | nil => simp [updKey]
  | cons kv es ih =>
    simp only [List.map_cons, List.nodup_cons] at hk hv
    simp only [List.map_cons, List.mem_cons, not_or] at hnv
    by_cases hkp : kv.1 = p
    · have hrest : updKey p v es = es := by
        apply updKey_of_not_key
        intro x hx hxp
        apply hk.1
        rw [hkp, ← hxp]
        exact List.mem_map_of_mem Prod.fst hx
      simp only [updKey, List.map_cons, if_pos hkp]
      rw [show List.map (fun kv => if kv.1 = p then (kv.1, v) else kv) es
            = updKey p v es from rfl, hrest]
      simp only [List.map_cons, List.nodup_cons]
      exact ⟨hnv.2, hv.2⟩
    · simp only [updKey, List.map_cons, if_neg hkp]
      rw [show List.map (fun kv => if kv.1 = p then (kv.1, v) else kv) es
            = updKey p v es from rfl]
      simp only [List.map_cons, List.nodup_cons]
      constructor
      · intro hmem
        rcases mem_snd_updKey p v es kv.2 hmem with h | h
        · exact hnv.1 h.symm
        · exact hv.1 h
      · exact ih hk.2 hv.2 hnv.2

/-! ## The main invariant of `do_mapping` -/

theorem processProblems_spec (rnd : Nat → Nat) (maxLen fuel : Nat) :
    ∀ (probs : List CPName) (entries : List (CPName × CPName)) (i : Nat)
      (out : List (CPName × CPName)),
      processProblems rnd maxLen fuel probs entries i = some out →
      (entries.map Prod.fst).Nodup →
      (entries.map Prod.snd).Nodup →
      (∀ p ∈ probs, maxLen < p.length) →
      (∀ kv ∈ entries,
        kv.2.length ≤ max maxLen (nonLetterCount kv.1) ∨ (kv.2 = kv.1 ∧ kv.1 ∈ probs)) →
      (∀ kv ∈ entries, kv.1.length ≤ maxLen → kv.2 = kv.1) →
      out.map Prod.fst = entries.map Prod.fst ∧
      (out.map Prod.snd).Nodup ∧
      (∀ kv ∈ out, kv.2.length ≤ max maxLen (nonLetterCount kv.1)) ∧
      (∀ kv ∈ out, kv.1.length ≤ maxLen → kv.2 = kv.1) := by
  intro probs
  induction probs with
  | nil =>
    intro entries i out h hk hv _ hOK hshort
    simp only [processProblems] at h
    injection h with h
    subst h
    refine ⟨rfl, hv, ?_, hshort⟩
    intro kv hkv
    rcases hOK kv hkv with h | h
    · exact h
    · simp at h
  | cons p rest ih =>
    intro entries i out h hk hv hprobs hOK hshort
    simp only [processProblems] at h
    rcases hcr : collisionRetry rnd maxLen (entries.map Prod.snd) p fuel
        (threePassShorten maxLen p) i with _ | r
    · rw [hcr] at h; simp at h
    · rw [hcr] at h
      simp only at h
      have hplen : maxLen < p.length := hprobs p (by simp)
      have hnotmem : r.1 ∉ entries.map Prod.snd :=
        collisionRetry_not_mem rnd maxLen _ p fuel _ i r hcr
      have hrlen : r.1.length ≤ max maxLen (nonLetterCount p) := by
        rcases collisionRetry_length rnd maxLen _ p fuel _ i r hcr with heq | hle
        · rw [heq]; exact threePassShorten_length maxLen p hplen
        · exact le_max_of_le_left hle
      have hk' : ((updKey p r.1 entries).map Prod.fst).Nodup := by
        rw [updKey_map_fst]; exact hk
      have hv' := nodup_snd_updKey p r.1 entries hk hv hnotmem
      have hOK' : ∀ kv ∈ updKey p r.1 entries,
          kv.2.length ≤ max maxLen (nonLetterCount kv.1) ∨ (kv.2 = kv.1 ∧ kv.1 ∈ rest) := by
        intro kv hkv
        rcases mem_updKey_elim p r.1 entries kv hkv with ⟨h2, h1, _⟩ | ⟨hmem, hne⟩
        · left; rw [h2, h1]; exact hrlen
        · rcases hOK kv hmem with hb | ⟨he, hin⟩
          · left; exact hb
          · right
            refine ⟨he, ?_⟩
            rcases List.mem_cons.mp hin with h' | h'
            · exact absurd h' hne
            · exact h'
      have hshort' : ∀ kv ∈ updKey p r.1 entries, kv.1.length ≤ maxLen → kv.2 = kv.1 := by
        intro kv hkv hlen
        rcases mem_updKey_elim p r.1 entries kv hkv with ⟨_, h1, _⟩ | ⟨hmem, _⟩
        · rw [h1] at hlen; omega
        · exact hshort kv hmem hlen
      obtain ⟨hfst, hnd, hbound, hid⟩ := ih (updKey p r.1 entries) r.2 out h hk' hv'
        (fun q hq => hprobs q (by simp [hq])) hOK' hshort'
      exact ⟨by rw [hfst, updKey_map_fst], hnd, hbound, hid⟩

theorem do_mapping_spec (rnd : Nat → Nat) (maxLen fuel : Nat) (names : List CPName)
    (entries : List (CPName × CPName))
    (hnd : names.Nodup)
    (hmap : do_mapping rnd maxLen fuel names = some entries) :
    entries.map Prod.fst = names ∧
    (entries.map Prod.snd).Nodup ∧
    (∀ kv ∈ entries, kv.2.length ≤ max maxLen (nonLetterCount kv.1)) ∧
    (∀ kv ∈ entries, kv.1.length ≤ maxLen → kv.2 = kv.1) := by
  unfold do_mapping at hmap
  have hfst0 : (names.map (fun n => (n, n))).map Prod.fst = names := by
    simp only [List.map_map]
    exact List.map_id names
  have hsnd0 : (names.map (fun n => (n, n))).map Prod.snd = names := by
    simp only [List.map_map]
    exact List.map_id names
  obtain ⟨hfst, hnd', hbound, hid⟩ := processProblems_spec rnd maxLen fuel _ _ _ _
    hmap (by rw [hfst0]; exact hnd) (by rw [hsnd0]; exact hnd)
    (by
      intro p hp
      have := List.of_mem_filter hp
      simpa using this)
    (by
      intro kv hkv
      simp only [List.mem_map] at hkv
      obtain ⟨n, hn, rfl⟩ := hkv
      by_cases hl : n.length ≤ maxLen
      · left; exact le_max_of_le_left hl
      · right
        refine ⟨rfl, List.mem_filter.mpr ⟨hn, ?_⟩⟩
        simp; omega)
    (by
      intro kv hkv _
      simp only [List.mem_map] at hkv
      obtain ⟨n, _, rfl⟩ := hkv
      rfl)
  rw [hfst0] at hfst
  exact ⟨hfst, hnd', hbound, hid⟩

theorem mappingResolve_mem (entries : List (CPName × CPName))
    (hk : (entries.map Prod.fst).Nodup) (kv : CPName × CPName) (h : kv ∈ entries) :
    mappingResolve entries kv.1 = some kv.2 := by
  induction entries with
  | nil => simp at h
  | cons e es ih =>
    simp only [List.map_cons, List.nodup_cons] at hk
    rcases List.mem_cons.mp h with rfl | hmem
    · simp [mappingResolve]
    · have hne : e.1 ≠ kv.1 := by
        intro heq
        exact hk.1 (heq ▸ List.mem_map_of_mem Prod.fst hmem)
      simp only [mappingResolve, List.find?_cons]
      rw [decide_eq_false hne]
      exact ih hk.2 hmem

/-! ## Claim C1 -/

/-- **C1** (counterexample).  The feature name `'a'` followed by 70
underscores (71 characters, max length 64) loses only its single `'a'`
in the three removal passes; the result (70 underscores) does not
collide, so `do_mapping` keeps it, and resolution returns a 70-character
identifier — longer than the configured maximum.  This refutes the
claim that every returned identifier's length is at most the configured
maximum. -/
theorem claim_C1_counterexample :
    do_mapping (fun _ => 0) 64 1 [c1name] =
      some [(c1name, List.replicate 70 '_')] ∧
    mappingResolve [(c1name, List.replicate 70 '_')] c1name =
      some (List.replicate 70 '_') ∧
    64 < (List.replicate 70 '_' : CPName).length := by
  exact ⟨by decide, by decide, by decide⟩

/-- **C1** (amended).  For every finite set of registered feature names,
if `do_mapping` completes, the identifiers returned by resolution are
pairwise distinct; each identifier's length is at most the configured
maximum length, except that a name with fewer removable ASCII letters
than its excess may yield an identifier of up to `max maxLen
(nonLetterCount name)` characters. -/
theorem claim_C1_amended (rnd : Nat → Nat) (maxLen fuel : Nat) (names : List CPName)
    (entries : List (CPName × CPName))
    (hnd : names.Nodup)
    (hmap : do_mapping rnd maxLen fuel names = some entries) :
    entries.map Prod.fst = names ∧
    (entries.map Prod.snd).Nodup ∧
    (∀ kv ∈ entries, mappingResolve entries kv.1 = some kv.2) ∧
    ∀ kv ∈ entries, kv.2.length ≤ max maxLen (nonLetterCount kv.1) := by
  obtain ⟨hfst, hnd', hbound, _⟩ := do_mapping_spec rnd maxLen fuel names entries hnd hmap
  refine ⟨hfst, hnd', ?_, hbound⟩
  intro kv hkv
  exact mappingResolve_mem entries (by rw [hfst]; exact hnd) kv hkv

/-- Witness for C1 (amended) at a concrete registry. -/
theorem claim_C1_witness :
    (["ab".data, "abcde".data] : List CPName).Nodup ∧
    ((([("ab".data, ("ab".data : CPName)), ("abcde".data, "bcd".data)]).map Prod.snd).Nodup ∧
      ∀ kv ∈ [("ab".data, ("ab".data : CPName)), ("abcde".data, "bcd".data)],
        kv.2.length ≤ max 3 (nonLetterCount kv.1)) := by
  refine ⟨by decide, ?_, ?_⟩
  · exact (claim_C1_amended (fun _ => 0) 3 5 ["ab".data, "abcde".data] _
      (by decide) (by decide)).2.1
  · exact (claim_C1_amended (fun _ => 0) 3 5 ["ab".data, "abcde".data] _
      (by decide) (by decide)).2.2.2

/-! ## Claim C9 -/

/-- **C9** (confirmed).  Resolution is the identity on every registered
name whose length is within the configured maximum: the mapping never
alters a within-bound name, whether or not other registered names need
shortening. -/
theorem claim_C9_resolve_identity (rnd : Nat → Nat) (maxLen fuel : Nat)
    (names : List CPName) (entries : List (CPName × CPName))
    (hnd : names.Nodup)
    (hmap : do_mapping rnd maxLen fuel names = some entries)
    (k : CPName) (hk : k ∈ names) (hlen : k.length ≤ maxLen) :
    mappingResolve entries k = some k := by
  obtain ⟨hfst, _, _, hid⟩ := do_mapping_spec rnd maxLen fuel names entries hnd hmap
  have hkeys : k ∈ entries.map Prod.fst := by rw [hfst]; exact hk
  simp only [List.mem_map] at hkeys
  obtain ⟨kv, hkv, hkeq⟩ := hkeys
  have h2 : kv.2 = kv.1 := hid kv hkv (by rw [hkeq]; exact hlen)
  have hres := mappingResolve_mem entries (by rw [hfst]; exact hnd) kv hkv
  rw [h2, hkeq] at hres
  exact hres

/-- Witness for C9: the short name `"ab"` resolves to itself in a
registry that also contains a name needing shortening. -/
theorem claim_C9_witness :
    mappingResolve [("ab".data, ("ab".data : CPName)), ("abcde".data, "bcd".data)]
      "ab".data = some "ab".data :=
  claim_C9_resolve_identity (fun _ => 0) 3 5 ["ab".data, "abcde".data] _
    (by decide) (by decide) "ab".data (by decide) (by decide)

/-! ## Claim C7 -/

/-- **C7**.  The collision-retry loop of `do_mapping` has NO retry bound
in the source: with `max_len = 1` and the registered names `"a"`, `"b"`,
`"ab"`, every candidate the random fallback can produce is already
taken, so the loop never exits — for every retry budget `fuel` and every
randomness stream, the model reports the loop still running.  The claim
that the fallback performs a bounded number of attempts (failing fatally
when the bound is exhausted) is therefore right about the intent but
wrong about the code, which loops forever. -/
theorem claim_C7_retry_loop_unbounded (fuel : Nat) (rnd : Nat → Nat) :
    do_mapping rnd 1 fuel c7names = none := by
  have hmem2 : ∀ i : Nat,
      (randShorten rnd 1 (['a', 'b'] : CPName).length ['a', 'b'] i).1 ∈ c7names := by
    intro i
    have hlen : (['a', 'b'] : CPName).length = 2 := rfl
    rcases Nat.mod_two_eq_zero_or_one (rnd i) with h | h
    · have : randShorten rnd 1 (['a', 'b'] : CPName).length ['a', 'b'] i
          = (['b'], i + 1) := by
        rw [hlen]
        simp [randShorten, h]
      rw [this]
      simp [c7names]
    · have : randShorten rnd 1 (['a', 'b'] : CPName).length ['a', 'b'] i
          = (['a'], i + 1) := by
        rw [hlen]
        simp [randShorten, h]
      rw [this]
      simp [c7names]
  have key : ∀ (f : Nat) (cand : CPName) (i : Nat), cand ∈ c7names →
      collisionRetry rnd 1 c7names ['a', 'b'] f cand i = none := by
    intro f
    induction f with
    | zero =>
      intro cand i hc
      simp [collisionRetry, hc]
    | succ f ih =>
      intro cand i hc
      simp only [collisionRetry, if_pos hc]
      exact ih _ _ (hmem2 i)
  have hfilter : c7names.filter (fun n => decide (1 < n.length)) = [['a', 'b']] := by
    decide
  have hvals : (c7names.map (fun n => (n, n))).map Prod.snd = c7names := by decide
  unfold do_mapping
  rw [hfilter]
  simp only [processProblems]
  rw [hvals, key fuel (threePassShorten 1 ['a', 'b']) 0 (by decide)]

/-! ## Claim C10 -/

/-- **C10** (confirmed).  `get_column_name_mappings` registers the
`Mean_`, `Median_` and `StdDev_` variants of every retained non-Image
feature using the constant `cpmeas.AGG_NAMES`, regardless of which
aggregate kinds are selected in the settings; every selected aggregate
name is one of these three, so disabled kinds still occupy the
registry's collision space. -/
theorem claim_C10_all_aggregates_registered :
    (∀ wm wmed ws : Bool, ∀ a ∈ agg_names wm wmed ws, a ∈ AGG_NAMES) ∧
    (∀ (objectFeatures : List (CPName × List CPName)) (o : CPName)
        (feats : List CPName) (f a : CPName),
        (o, feats) ∈ objectFeatures → f ∈ feats → o ≠ sImage →
        ignore_feature o f = false → a ∈ AGG_NAMES →
        aggFeatName a o f ∈ get_column_name_mappings objectFeatures) := by
  constructor
  · intro wm wmed ws a ha
    simp only [agg_names, List.mem_append] at ha
    rcases ha with (h | h) | h <;> simp_all [AGG_NAMES]
  · intro ofs o feats f a hof hf ho hig ha
    simp only [get_column_name_mappings, List.mem_flatMap]
    refine ⟨(o, feats), hof, ?_⟩
    refine ⟨f, hf, ?_⟩
    simp only [hig, Bool.false_eq_true, if_false, List.mem_cons]
    right
    rw [if_pos ho]
    exact List.mem_map_of_mem _ ha

/-- Witness for C10 at a concrete one-object catalog. -/
theorem claim_C10_witness :
    aggFeatName sMean "Nuclei".data "Area".data ∈
      get_column_name_mappings [("Nuclei".data, ["Area".data])] :=
  claim_C10_all_aggregates_registered.2 [("Nuclei".data, ["Area".data])]
    "Nuclei".data ["Area".data] "Area".data sMean (by decide) (by decide)
    (by decide) (by decide) (by decide)

/-! ## Claim C4: schema column counts -/

theorem length_filter_or_disjoint {α : Type} (l : List α) (p q : α → Bool)
    (h : ∀ x ∈ l, ¬(p x = true ∧ q x = true)) :
    (l.filter (fun x => p x || q x)).length = (l.filter p).length + (l.filter q).length := by
  induction l with
  | nil => simp
  | cons a l ih =>
    have ha := h a (by simp)
    have ih' := ih (fun x hx => h x (by simp [hx]))
    by_cases hp : p a = true
    · by_cases hq : q a = true
      · exact absurd ⟨hp, hq⟩ ha
      · have hq' : q a = false := by simpa using hq
        simp only [List.filter_cons, hp, hq', Bool.or_false, if_true,
          Bool.false_eq_true, if_false, List.length_cons, ih']
        omega
    · have hp' : p a = false := by simpa using hp
      by_cases hq : q a = true
      · simp only [List.filter_cons, hp', hq, Bool.false_or, if_true,
          Bool.false_eq_true, if_false, List.length_cons, ih']
        omega
      · have hq' : q a = false := by simpa using hq
        simp only [List.filter_cons, hp', hq', Bool.or_self,
          Bool.false_eq_true, if_false, ih']
  
theorem length_flatMap_filter (cdefs : List ColDef) (P : ColDef → Bool) :
    ∀ (l : List CPName), l.Nodup →
      (l.flatMap (fun ob => cdefs.filter (fun c => decide (c.1 = ob) && P c))).length
        = (cdefs.filter (fun c => decide (c.1 ∈ l) && P c)).length := by
  intro l
  induction l with
  | nil =>
    intro _
    simp
  | cons ob l ih =>
    intro hnd
    simp only [List.nodup_cons] at hnd
    rw [List.flatMap_cons, List.length_append, ih hnd.2]
    have hcongr : cdefs.filter (fun c => decide (c.1 ∈ ob :: l) && P c)
        = cdefs.filter (fun c =>
            (decide (c.1 = ob) && P c) || (decide (c.1 ∈ l) && P c)) := by
      apply List.filter_congr
      intro x _
      cases hd : decide (x.1 = ob) <;> cases hm : decide (x.1 ∈ l) <;>
        cases hp : P x <;> simp_all [List.mem_cons]
    rw [hcongr, length_filter_or_disjoint]
    intro x _ hx
    simp only [Bool.and_eq_true, decide_eq_true_eq] at hx
    exact hnd.1 (hx.1.1 ▸ hx.2.1)

theorem mem_obTables (cdefs : List ColDef) (o : CPName) :
    o ∈ obTables cdefs ↔ o ≠ sImage ∧ o ≠ sExperiment ∧ ∃ c ∈ cdefs, c.1 = o := by
  simp only [obTables, List.mem_dedup, List.mem_filterMap]
  constructor
  · rintro ⟨c, hc, hco⟩
    by_cases h : c.1 ≠ sImage ∧ c.1 ≠ sExperiment
    · rw [if_pos h] at hco
      injection hco with hco
      subst hco
      exact ⟨h.1, h.2, c, hc, rfl⟩
    · rw [if_neg h] at hco; cases hco
  · rintro ⟨h1, h2, c, hc, rfl⟩
    exact ⟨c, hc, by rw [if_pos ⟨h1, h2⟩]⟩

theorem not_ignore_ne_experiment (o f : CPName) (h : ignore_feature o f = false) :
    o ≠ sExperiment := by
  intro heq
  subst heq
  simp [ignore_feature, ignore_object] at h

theorem objectEntries_length (cdefs : List ColDef) :
    (objectEntries cdefs).length = retainedObjectPairCount cdefs := by
  unfold objectEntries retainedObjectPairCount
  rw [length_flatMap_filter cdefs _ (obTables cdefs) (List.nodup_dedup _)]
  apply congrArg List.length
  apply List.filter_congr
  intro c hc
  cases hig : ignore_feature c.1 c.2.1 with
  | true => simp [hig]
  | false =>
    have hiff : c.1 ∈ obTables cdefs ↔ c.1 ≠ sImage := by
      rw [mem_obTables]
      constructor
      · rintro ⟨h, _, _⟩; exact h
      · intro h
        exact ⟨h, not_ignore_ne_experiment _ _ hig, c, hc, rfl⟩
    simp [hig, hiff]

theorem ignore_feature_agg_mean (o f : CPName) :
    ignore_feature sImage (aggFeatName sMean o f) = false := rfl

theorem ignore_feature_agg_median (o f : CPName) :
    ignore_feature sImage (aggFeatName sMedian o f) = false := rfl

theorem ignore_feature_agg_stddev (o f : CPName) :
    ignore_feature sImage (aggFeatName sStdDev o f) = false := rfl

theorem mem_agg_names (wm wmed ws : Bool) (a : CPName)
    (h : a ∈ agg_names wm wmed ws) : a = sMean ∨ a = sMedian ∨ a = sStdDev := by
  cases wm <;> cases wmed <;> cases ws <;> simp_all [agg_names] <;> tauto

theorem ignore_feature_agg (a o f : CPName)
    (ha : a = sMean ∨ a = sMedian ∨ a = sStdDev) :
    ignore_feature sImage (aggFeatName a o f) = false := by
  rcases ha with rfl | rfl | rfl
  · exact ignore_feature_agg_mean o f
  · exact ignore_feature_agg_median o f
  · exact ignore_feature_agg_stddev o f

theorem mem_agg_column_defs (cdefs : List ColDef) (active : List CPName)
    (c : ColDef) (h : c ∈ agg_column_defs cdefs active) :
    ∃ a ∈ active, ∃ e ∈ objectEntries cdefs, c = (sImage, aggFeatName a e.1 e.2.1, FLOATty) := by
  simp only [agg_column_defs, List.mem_flatMap, List.mem_map] at h
  obtain ⟨e, he, a, ha, rfl⟩ := h
  exact ⟨a, ha, e, he, rfl⟩

theorem length_flatMap_const {α β : Type} (l : List α) (f : α → List β) (k : Nat)
    (h : ∀ a ∈ l, (f a).length = k) : (l.flatMap f).length = l.length * k := by
  induction l with
  | nil => simp
  | cons a l ih =>
    rw [List.flatMap_cons, List.length_append, h a (by simp),
      ih (fun x hx => h x (by simp [hx])), List.length_cons]
    ring

theorem agg_column_defs_length (cdefs : List ColDef) (active : List CPName) :
    (agg_column_defs cdefs active).length
      = retainedObjectPairCount cdefs * active.length := by
  unfold agg_column_defs
  rw [length_flatMap_const _ _ active.length (fun e _ => by simp),
    objectEntries_length]

/-- **C4** (confirmed).  For every column-definition catalog and every
combination of the three aggregate settings, the object-table column
list derived by `create_database_tables` has `2 + (retained object
pairs)` columns, and the image-table column list has `1 + (retained
Image features) + (selected aggregate kinds) × (retained object pairs)`
columns, where retained means not excluded by `ignore_feature`. -/
theorem claim_C4_schema_column_counts (cdefs : List ColDef) (wm wmed ws : Bool) :
    (objectColumnNames cdefs).length = 2 + retainedObjectPairCount cdefs ∧
    (imageTableColumns cdefs (agg_names wm wmed ws)).length
      = 1 + retainedImageFeatureCount cdefs
        + (agg_names wm wmed ws).length * retainedObjectPairCount cdefs := by
  constructor
  · simp only [objectColumnNames, List.length_cons, List.length_map,
      objectEntries_length]
    omega
  · set active := agg_names wm wmed ws with hactive
    have hfilterAgg :
        (agg_column_defs cdefs active).filter
            (fun c => decide (c.1 = sImage) && !ignore_feature c.1 c.2.1)
          = agg_column_defs cdefs active := by
      apply List.filter_eq_self.mpr
      intro c hc
      obtain ⟨a, ha, e, _, rfl⟩ := mem_agg_column_defs cdefs active c hc
      have hig := ignore_feature_agg a e.1 e.2.1 (mem_agg_names wm wmed ws a ha)
      simp [hig]
    simp only [imageTableColumns, List.length_cons, imageColumnNames,
      List.length_map, List.filter_append, List.length_append, hfilterAgg,
      agg_column_defs_length]
    unfold retainedImageFeatureCount
    have := Nat.mul_comm (retainedObjectPairCount cdefs) active.length
    omega

/-! ## Claim C3: count reconciliation -/

theorem setFirst_replicate (mc : Nat) (vs : List FVal) (h : vs.length ≤ mc) :
    setFirst (List.replicate mc fzero) vs = vs ++ List.replicate (mc - vs.length) fzero := by
  induction vs generalizing mc with
  | nil => simp [setFirst]
  | cons v vs ih =>
    cases mc with
    | zero => simp at h
    | succ mc =>
      rw [List.replicate_succ]
      simp only [setFirst, List.cons_append, List.length_cons, Nat.succ_sub_succ]
      rw [ih mc (by simpa using h)]

/-- **C3** (confirmed).  For `max_count > 0`, the per-feature object
vector reconciliation never fails and always yields a column of exactly
`max_count` entries in BOTH writers: a short vector is padded with zeros
and a too-few diagnostic reporting actual vs. expected counts is
emitted; a long vector is truncated to its first `max_count` entries
with a too-many diagnostic; an exact vector passes through silently.
The two writers produce the same column. -/
theorem claim_C3_count_reconciliation (maxCount : Nat) (raw : List FVal)
    (hmc : 0 < maxCount) :
    (reconcile_db maxCount raw).1.length = maxCount ∧
    (reconcile_file maxCount raw).1 = (reconcile_db maxCount raw).1 ∧
    (raw.length < maxCount →
      (reconcile_db maxCount raw).1
          = raw.map sanitizeF ++ List.replicate (maxCount - raw.length) fzero ∧
      (reconcile_db maxCount raw).2 = some ⟨WarnKind.tooFew, raw.length, maxCount⟩ ∧
      (reconcile_file maxCount raw).2 = some ⟨WarnKind.tooFew, raw.length, maxCount⟩) ∧
    (maxCount < raw.length →
      (reconcile_db maxCount raw).1 = (raw.map sanitizeF).take maxCount ∧
      (reconcile_db maxCount raw).2 = some ⟨WarnKind.tooMany, raw.length, maxCount⟩ ∧
      (reconcile_file maxCount raw).2 = some ⟨WarnKind.tooMany, raw.length, maxCount⟩) ∧
    (raw.length = maxCount →
      (reconcile_db maxCount raw).2 = none ∧ (reconcile_file maxCount raw).2 = none) := by
  have hn : (raw.map sanitizeF).length = raw.length := by simp
  rcases lt_trichotomy raw.length maxCount with hlt | heq | hgt
  · have hdb : reconcile_db maxCount raw
        = (raw.map sanitizeF ++ List.replicate (maxCount - raw.length) fzero,
            some ⟨WarnKind.tooFew, raw.length, maxCount⟩) := by
      simp only [reconcile_db, hn]
      rw [if_pos hlt]
    have hfile : reconcile_file maxCount raw
        = (setFirst (List.replicate maxCount fzero) (raw.map sanitizeF),
            some ⟨WarnKind.tooFew, raw.length, maxCount⟩) := by
      simp only [reconcile_file, hn]
      rw [if_neg (by omega), if_pos hlt]
    have hset := setFirst_replicate maxCount (raw.map sanitizeF) (by omega)
    rw [hn] at hset
    refine ⟨?_, ?_, ?_, ?_, ?_⟩
    · rw [hdb]; simp; omega
    · rw [hdb, hfile]; simpa using hset
    · intro _; exact ⟨by rw [hdb], by rw [hdb], by rw [hfile]⟩
    · intro h; omega
    · intro h; omega
  · have hdb : reconcile_db maxCount raw = (raw.map sanitizeF, none) := by
      simp only [reconcile_db, hn]
      rw [if_neg (by omega), if_neg (by omega)]
    have hfile : reconcile_file maxCount raw
        = (setFirst (List.replicate maxCount fzero) (raw.map sanitizeF), none) := by
      simp only [reconcile_file, hn]
      rw [if_neg (by omega), if_neg (by omega), if_neg (by omega)]
    have hset := setFirst_replicate maxCount (raw.map sanitizeF) (by omega)
    rw [hn, heq, Nat.sub_self, List.replicate_zero, List.append_nil] at hset
    refine ⟨?_, ?_, ?_, ?_, ?_⟩
    · rw [hdb]; simpa using heq
    · rw [hdb, hfile]; simpa using hset
    · intro h; omega
    · intro h; omega
    · intro _; exact ⟨by rw [hdb], by rw [hfile]⟩
  · have hdb : reconcile_db maxCount raw
        = ((raw.map sanitizeF).take maxCount,
            some ⟨WarnKind.tooMany, raw.length, maxCount⟩) := by
      simp only [reconcile_db, hn]
      rw [if_neg (by omega), if_pos hgt]
    have hfile : reconcile_file maxCount raw
        = (setFirst (List.replicate maxCount fzero) ((raw.map sanitizeF).take maxCount),
            some ⟨WarnKind.tooMany, raw.length, maxCount⟩) := by
      simp only [reconcile_file, hn]
      rw [if_pos hgt, if_neg (by omega), if_pos hgt]
    have htlen : ((raw.map sanitizeF).take maxCount).length = maxCount := by
      simp [hn]; omega
    have hset := setFirst_replicate maxCount ((raw.map sanitizeF).take maxCount)
      (by omega)
    rw [htlen, Nat.sub_self, List.replicate_zero, List.append_nil] at hset
    refine ⟨?_, ?_, ?_, ?_, ?_⟩
    · rw [hdb]; exact htlen
    · rw [hdb, hfile]; exact hset
    · intro h; omega
    · intro _; exact ⟨by rw [hdb], by rw [hdb], by rw [hfile]⟩
    · intro h; omega

/-- Witness for C3: the spec's own test vector — `max_count = 5`, a
3-entry vector (one entry non-finite): the column is the sanitized
vector padded with exactly two zeros, and a too-few diagnostic
reporting (3, 5) is recorded, in both writers. -/
theorem claim_C3_witness :
    (0 : Nat) < 5 ∧
    (reconcile_db 5 [⟨true, 1⟩, ⟨false, 7⟩, ⟨true, 2⟩]).1.length = 5 ∧
    (reconcile_file 5 [⟨true, 1⟩, ⟨false, 7⟩, ⟨true, 2⟩]).1
      = (reconcile_db 5 [⟨true, 1⟩, ⟨false, 7⟩, ⟨true, 2⟩]).1 ∧
    (reconcile_db 5 [⟨true, 1⟩, ⟨false, 7⟩, ⟨true, 2⟩]).2
      = some ⟨WarnKind.tooFew, 3, 5⟩ := by
  have h := claim_C3_count_reconciliation 5 [⟨true, 1⟩, ⟨false, 7⟩, ⟨true, 2⟩]
    (by decide)
  exact ⟨by decide, h.1, h.2.1, (h.2.2.1 (by decide)).2.1⟩

/-! ## Claim C6: non-finite image values -/

/-- The measurement source of the C6 counterexample: the single Image
feature measures a non-finite float. -/
def c6meas : MeasSource :=
  ⟨fun _ => MVal.mfloat false 7, fun _ _ => [], fun _ => []⟩

/-- **C6** (counterexample).  On the file path (`write_data`), a
non-finite Image measurement is stored in the ImageRow UNCHANGED — not
as 0: the claim fails for the file path.  Here the assembled image row
holds the non-finite float at the feature's column position. -/
theorem claim_C6_counterexample :
    write_data_assemble [sImage] (fun _ => ["Meta".data])
        (perImageMap [(sImage, "Meta".data, FLOATty)] [sImage]
          (fun _ => ["Meta".data]) [])
        (perObjectMap [sImage] (fun _ => ["Meta".data]))
        false false false c6meas id 1
      = some ([some (MVal.mint 1), some (MVal.mfloat false 7)], []) ∧
    MVal.mfloat false 7 ≠ MVal.mint 0 := by
  exact ⟨by decide, by decide⟩

/-- **C6** (amended).  The relational path (`write_data_to_db` lines
705-708) coerces a non-finite Image float (scalar or first array
element) to the integer 0 and leaves finite values untouched, with no
diagnostic; the file path (`write_data` lines 619-622) applies no
finiteness check to Image values and stores non-finite floats
unchanged; non-finite OBJECT-vector entries are coerced to 0 on both
paths. -/
theorem claim_C6_amended :
    (∀ x : Int, dbImageCoerce (MVal.mfloat false x) = MVal.mint 0) ∧
    (∀ x : Int, dbImageCoerce (MVal.marr (MVal.mfloat false x)) = MVal.mint 0) ∧
    (∀ x : Int, dbImageCoerce (MVal.mfloat true x) = MVal.mfloat true x) ∧
    (∀ (esc : CPName → CPName) (x : Int),
      fileImageCoerce esc (MVal.mfloat false x) = MVal.mfloat false x) ∧
    (∀ x : FVal, x.finite = false → sanitizeF x = fzero) := by
  refine ⟨fun _ => rfl, fun _ => rfl, fun _ => rfl, fun _ _ => rfl, ?_⟩
  intro x hx
  simp [sanitizeF, hx]

/-- Witness for C6 (amended) at a concrete non-finite value. -/
theorem claim_C6_witness :
    dbImageCoerce (MVal.mfloat false 7) = MVal.mint 0 ∧
    fileImageCoerce id (MVal.mfloat false 7) = MVal.mfloat false 7 ∧
    ((⟨false, 7⟩ : FVal).finite = false ∧ sanitizeF ⟨false, 7⟩ = fzero) := by
  refine ⟨claim_C6_amended.1 7, claim_C6_amended.2.2.2.1 id 7,
    by decide, claim_C6_amended.2.2.2.2 ⟨false, 7⟩ (by decide)⟩

/-! ## Claim C5: 25-row batching -/

theorem batchGo_fuel {α : Type} :
    ∀ (f g : Nat) (rows : List α), rows.length ≤ f → rows.length ≤ g →
      batchGo f rows = batchGo g rows := by
  intro f
  induction f with
  | zero =>
    intro g rows hf _
    have : rows = [] := List.eq_nil_of_length_eq_zero (by omega)
    subst this
    cases g <;> simp [batchGo]
  | succ f ih =>
    intro g rows hf hg
    cases rows with
    | nil => cases g <;> simp [batchGo]
    | cons r rs =>
      cases g with
      | zero => simp at hg
      | succ g =>
        simp only [batchGo]
        congr 1
        apply ih
        · simp only [List.length_drop, List.length_cons]
          simp only [List.length_cons] at hf
          omega
        · simp only [List.length_drop, List.length_cons]
          simp only [List.length_cons] at hg
          omega

theorem batchRows_cons {α : Type} (rows : List α) (h : rows ≠ []) :
    batchRows rows = rows.take 25 :: batchRows (rows.drop 25) := by
  cases rows with
  | nil => exact absurd rfl h
  | cons r rs =>
    show batchGo (r :: rs).length (r :: rs) = _
    rw [List.length_cons]
    simp only [batchGo]
    congr 1
    apply batchGo_fuel
    · simp only [List.length_drop, List.length_cons]
      omega
    · exact le_rfl

theorem batch_spec {α : Type} :
    ∀ (N : Nat) (rows : List α), rows.length ≤ N →
      (batchRows rows).flatten = rows ∧
      (batchRows rows).length = (rows.length + 24) / 25 ∧
      (∀ chunk ∈ (batchRows rows).dropLast, chunk.length = 25) ∧
      (∀ chunk, (batchRows rows).getLast? = some chunk →
        chunk.length = if rows.length % 25 = 0 then 25 else rows.length % 25) := by
  intro N
  induction N with
  | zero =>
    intro rows h
    have : rows = [] := List.eq_nil_of_length_eq_zero (by omega)
    subst this
    refine ⟨rfl, by norm_num [batchRows, batchGo], ?_, ?_⟩
    · intro chunk hc; simp [batchRows, batchGo] at hc
    · intro chunk hc; simp [batchRows, batchGo] at hc
  | succ N ih =>
    intro rows h
    cases hr : rows with
    | nil =>
      refine ⟨rfl, by norm_num [batchRows, batchGo], ?_, ?_⟩
      · intro chunk hc; simp [batchRows, batchGo] at hc
      · intro chunk hc; simp [batchRows, batchGo] at hc
    | cons r rs =>
      subst hr
      have hne : (r :: rs) ≠ [] := by simp
      have hlen : (r :: rs).length = rs.length + 1 := by simp
      rw [batchRows_cons _ hne]
      have hdlen : ((r :: rs).drop 25).length = (r :: rs).length - 25 := by
        simp
      obtain ⟨ihflat, ihlen, ihmid, ihlast⟩ := ih ((r :: rs).drop 25) (by omega)
      by_cases hsmall : (r :: rs).length ≤ 25
      · have hdrop : (r :: rs).drop 25 = [] := by
          apply List.eq_nil_of_length_eq_zero
          omega
        have htake : (r :: rs).take 25 = r :: rs := List.take_of_length_le hsmall
        rw [hdrop, htake]
        have hbnil : batchRows ([] : List α) = [] := rfl
        rw [hbnil]
        refine ⟨by simp, ?_, ?_, ?_⟩
        · simp only [List.length_cons, List.length_nil]
          omega
        · intro chunk hc
          simp at hc
        · intro chunk hc
          simp only [List.getLast?_singleton, Option.some.injEq] at hc
          subst hc
          by_cases h25 : (r :: rs).length % 25 = 0
          · rw [if_pos h25]; omega
          · rw [if_neg h25]; omega
      · have hdne : (r :: rs).drop 25 ≠ [] := by
          intro hd
          have := congrArg List.length hd
          simp at this
          omega
        obtain ⟨c, cs, hcc⟩ := List.exists_cons_of_ne_nil (hdne)
        have hbne : batchRows ((r :: rs).drop 25) ≠ [] := by
          rw [batchRows_cons _ hdne]
          simp
        obtain ⟨b, bs, hbb⟩ := List.exists_cons_of_ne_nil hbne
        refine ⟨?_, ?_, ?_, ?_⟩
        · simp only [List.flatten_cons, ihflat, List.take_append_drop]
        · simp only [List.length_cons, ihlen, hdlen]
          omega
        · intro chunk hc
          rw [hbb] at hc
          rw [List.dropLast_cons₂] at hc
          rcases List.mem_cons.mp hc with rfl | hc2
          · rw [List.length_take]
            simp only [List.length_cons]
            omega
          · exact ihmid chunk (by rw [hbb]; exact hc2)
        · intro chunk hc
          rw [hbb] at hc
          rw [List.getLast?_cons_cons] at hc
          have := ihlast chunk (by rw [hbb]; exact hc)
          rw [hdlen] at this
          have hmod : ((r :: rs).length - 25) % 25 = (r :: rs).length % 25 := by
            omega
          rw [hmod] at this
          exact this

/-- **C5** (confirmed).  The relational sink partitions the object rows
into consecutive chunks of at most 25: `ceil(n/25)` grouped writes, all
of size 25 except the last, which has `n mod 25` rows when `25 ∤ n`
(and 25 otherwise); concatenating the chunks recovers the row list, so
nothing is reordered or dropped. -/
theorem claim_C5_batch_sizes {α : Type} (rows : List α) :
    (batchRows rows).flatten = rows ∧
    (batchRows rows).length = (rows.length + 24) / 25 ∧
    (∀ chunk ∈ (batchRows rows).dropLast, chunk.length = 25) ∧
    (∀ chunk, (batchRows rows).getLast? = some chunk →
      chunk.length = if rows.length % 25 = 0 then 25 else rows.length % 25) :=
  batch_spec rows.length rows le_rfl

/-- Witness for C5: 53 rows yield exactly 3 grouped writes of sizes
25, 25, 3, in order. -/
theorem claim_C5_witness :
    (batchRows (List.range 53)).flatten = List.range 53 ∧
    (batchRows (List.range 53)).length = 3 ∧
    (batchRows (List.range 53)).map List.length = [25, 25, 3] := by
  have h := claim_C5_batch_sizes (List.range 53)
  refine ⟨h.1, ?_, by decide⟩
  rw [h.2.1]
  rfl

/-! ## Claim C8: csv quoting asymmetry -/

/-- **C8** (counterexample).  The image-file writer uses
`csv.QUOTE_NONNUMERIC`, which quotes only NON-numeric fields: a numeric
ImageRow field is written bare, refuting the claim that every field of
every ImageRow is written quoted (including numeric fields). -/
theorem claim_C8_counterexample :
    imageCsvField (CsvField.num 5) = ['5'] ∧
    '"' ∉ imageCsvField (CsvField.num 5) := by
  exact ⟨by decide, by decide⟩

/-- **C8** (amended).  The two per-run csv writers do apply asymmetric
quoting policies, but the image writer quotes exactly the non-numeric
fields (numeric fields stay bare), while the object writer quotes a
field only when it needs quoting; numeric fields are written
identically by both. -/
theorem claim_C8_quoting_asymmetry (s : CPName) (n : Int)
    (hq : needsQuoting s = false) (hne : s ≠ []) :
    imageCsvField (CsvField.text s) = quoteCsv s ∧
    objectCsvField (CsvField.text s) = s ∧
    (imageCsvField (CsvField.text s)).head? = some '"' ∧
    (objectCsvField (CsvField.text s)).head? ≠ some '"' ∧
    imageCsvField (CsvField.num n) = objectCsvField (CsvField.num n) := by
  refine ⟨rfl, ?_, rfl, ?_, rfl⟩
  · show writeFieldMinimal (CsvField.text s) = s
    simp [writeFieldMinimal, hq]
  · show (writeFieldMinimal (CsvField.text s)).head? ≠ some '"'
    simp only [writeFieldMinimal, hq, Bool.false_eq_true, if_false]
    cases s with
    | nil => exact absurd rfl hne
    | cons c cs =>
      simp only [List.head?_cons, ne_eq, Option.some.injEq]
      intro hcq
      subst hcq
      simp only [needsQuoting, List.any_cons, Bool.or_eq_false_iff] at hq
      simp at hq

/-- Witness for C8 (amended) on the plain field `"abc"` and the numeric
field 5. -/
theorem claim_C8_witness :
    imageCsvField (CsvField.text "abc".data) = quoteCsv "abc".data ∧
    objectCsvField (CsvField.text "abc".data) = "abc".data ∧
    imageCsvField (CsvField.num 5) = objectCsvField (CsvField.num 5) := by
  have h := claim_C8_quoting_asymmetry "abc".data 5 (by decide) (by decide)
  exact ⟨h.1, h.2.1, h.2.2.2.2⟩

/-! ## Dictionary lemmas for the row assemblers -/

theorem dlookup_dset_self (d : List (CPName × Nat)) (k : CPName) (v : Nat) :
    dlookup (dset d k v) k = some v := by
  induction d with
  | nil => simp [dset, dlookup]
  | cons kv m ih =>
    by_cases h : kv.1 = k
    · simp [dset, h, dlookup]
    · simp only [dset, if_neg h, dlookup]
      exact ih

theorem dlookup_dset_ne (d : List (CPName × Nat)) (k k' : CPName) (v : Nat)
    (h : k' ≠ k) : dlookup (dset d k v) k' = dlookup d k' := by
  induction d with
  | nil =>
    simp only [dset, dlookup]
    rw [if_neg (fun he => h he.symm)]
  | cons kv m ih =>
    by_cases hk : kv.1 = k
    · simp only [dset, if_pos hk, dlookup]
      rw [if_neg (fun he => h he.symm), if_neg (fun he => h (hk.symm.trans he).symm)]
    · simp only [dset, if_neg hk, dlookup]
      by_cases hk' : kv.1 = k'
      · rw [if_pos hk', if_pos hk']
      · rw [if_neg hk', if_neg hk']
        exact ih

theorem dlookup_mem (d : List (CPName × Nat)) (k : CPName) (p : Nat)
    (h : dlookup d k = some p) : (k, p) ∈ d := by
  induction d with
  | nil => simp [dlookup] at h
  | cons kv m ih =>
    simp only [dlookup] at h
    by_cases hk : kv.1 = k
    · rw [if_pos hk] at h
      injection h with h
      have hkp : (k, p) = kv := by rw [← hk, ← h]
      rw [hkp]
      exact List.mem_cons_self _ _
    · rw [if_neg hk] at h
      exact List.mem_cons_of_mem _ (ih h)

theorem dset_mem_elim (d : List (CPName × Nat)) (k : CPName) (v : Nat)
    (kv : CPName × Nat) (h : kv ∈ dset d k v) : kv = (k, v) ∨ kv ∈ d := by
  induction d with
  | nil => simp [dset] at h; left; exact h
  | cons e m ih =>
    by_cases he : e.1 = k
    · simp only [dset, if_pos he] at h
      rcases List.mem_cons.mp h with rfl | h2
      · left; rfl
      · right; exact List.mem_cons_of_mem _ h2
    · simp only [dset, if_neg he] at h
      rcases List.mem_cons.mp h with rfl | h2
      · right; exact List.mem_cons_self _ _
      · rcases ih h2 with h3 | h3
        · left; exact h3
        · right; exact List.mem_cons_of_mem _ h3

theorem dset_length_fresh (d : List (CPName × Nat)) (k : CPName) (v : Nat)
    (h : dlookup d k = none) : (dset d k v).length = d.length + 1 := by
  induction d with
  | nil => simp [dset]
  | cons e m ih =>
    simp only [dlookup] at h
    by_cases he : e.1 = k
    · rw [if_pos he] at h; cases h
    · rw [if_neg he] at h
      simp only [dset, if_neg he, List.length_cons, ih h]

theorem ordFold_counter (ns : List CPName) :
    ∀ st : List (CPName × Nat) × Nat, (ordFold ns st).2 = st.2 + ns.length := by
  induction ns with
  | nil => intro st; simp [ordFold]
  | cons n ns ih =>
    intro st
    simp only [ordFold, ih, List.length_cons]
    omega

theorem ordFold_preserves_some (k : CPName) (ns : List CPName) :
    ∀ st : List (CPName × Nat) × Nat, (dlookup st.1 k).isSome →
      (dlookup (ordFold ns st).1 k).isSome := by
  induction ns with
  | nil => intro st h; exact h
  | cons n ns ih =>
    intro st h
    simp only [ordFold]
    apply ih
    by_cases hn : k = n
    · subst hn
      simp [dlookup_dset_self]
    · simp only [dlookup_dset_ne _ _ _ _ hn]
      exact h

theorem ordFold_mem_some (k : CPName) (ns : List CPName) :
    ∀ st : List (CPName × Nat) × Nat, k ∈ ns →
      (dlookup (ordFold ns st).1 k).isSome := by
  induction ns with
  | nil => intro st h; simp at h
  | cons n ns ih =>
    intro st hk
    rcases List.mem_cons.mp hk with rfl | h2
    · simp only [ordFold]
      apply ordFold_preserves_some
      simp [dlookup_dset_self]
    · simp only [ordFold]
      exact ih _ h2

theorem ordFold_invariant (b : Nat) (ns : List CPName) :
    ∀ st : List (CPName × Nat) × Nat, ns.Nodup →
      (∀ n ∈ ns, dlookup st.1 n = none) →
      (∀ kv ∈ st.1, kv.2 < st.2) →
      st.2 = st.1.length + b →
      (∀ kv ∈ (ordFold ns st).1, kv.2 < (ordFold ns st).2) ∧
      (ordFold ns st).2 = (ordFold ns st).1.length + b := by
  induction ns with
  | nil =>
    intro st _ _ hlt hc
    exact ⟨hlt, hc⟩
  | cons n ns ih =>
    intro st hnd hfresh hlt hc
    simp only [List.nodup_cons] at hnd
    simp only [ordFold]
    apply ih
    · exact hnd.2
    · intro m hm
      have hmne : m ≠ n := fun he => hnd.1 (he ▸ hm)
      rw [dlookup_dset_ne _ _ _ _ hmne]
      exact hfresh m (List.mem_cons_of_mem _ hm)
    · intro kv hkv
      rcases dset_mem_elim _ _ _ _ hkv with rfl | h2
      · simp
      · have := hlt kv h2
        omega
    · rw [dset_length_fresh _ _ _ (hfresh n (List.mem_cons_self _ _)), hc]
      omega

theorem dmaxVal_init_le (m : List (CPName × Nat)) :
    ∀ a : Nat, a ≤ m.foldl (fun x kv => max x kv.2) a := by
  induction m with
  | nil => intro a; simp
  | cons e es ih =>
    intro a
    simp only [List.foldl_cons]
    exact le_trans (le_max_left a e.2) (ih (max a e.2))

theorem dmaxVal_mem_le (m : List (CPName × Nat)) (kv : CPName × Nat) (h : kv ∈ m) :
    ∀ a : Nat, kv.2 ≤ m.foldl (fun x kv => max x kv.2) a := by
  induction m with
  | nil => simp at h
  | cons e es ih =>
    intro a
    simp only [List.foldl_cons]
    rcases List.mem_cons.mp h with rfl | h2
    · exact le_trans (le_max_right a kv.2) (dmaxVal_init_le es _)
    · exact ih h2 _

theorem dlookup_le_dmaxVal (d : List (CPName × Nat)) (k : CPName) (p : Nat)
    (h : dlookup d k = some p) : p ≤ dmaxVal d :=
  dmaxVal_mem_le d (k, p) (dlookup_mem d k p h) 0

/-! ## Write-fold lemmas -/

theorem foldl_set_untouched (writes : List (Nat × CPName)) (p : Nat) :
    ∀ row : List (Option ImageCell), (∀ w ∈ writes, w.1 ≠ p) →
      ((writes.foldl (fun r w => r.set w.1 (some (MVal.mint 0, FLOATty, w.2))) row).get? p)
        = row.get? p := by
  induction writes with
  | nil => intro row _; rfl
  | cons w ws ih =>
    intro row hne
    simp only [List.foldl_cons]
    rw [ih _ (fun w' hw' => hne w' (List.mem_cons_of_mem _ hw'))]
    rw [List.get?_eq_getElem?, List.get?_eq_getElem?]
    rw [List.getElem?_set_ne (hne w (List.mem_cons_self _ _))]

theorem foldl_set_length (writes : List (Nat × CPName)) :
    ∀ row : List (Option ImageCell),
      (writes.foldl (fun r w => r.set w.1 (some (MVal.mint 0, FLOATty, w.2))) row).length
        = row.length := by
  induction writes with
  | nil => intro row; rfl
  | cons w ws ih =>
    intro row
    simp only [List.foldl_cons, ih, List.length_set]

theorem foldl_set_writes (writes : List (Nat × CPName)) (p : Nat) :
    ∀ row : List (Option ImageCell), p < row.length →
      p ∈ writes.map Prod.fst →
      ∃ cname,
        ((writes.foldl (fun r w => r.set w.1 (some (MVal.mint 0, FLOATty, w.2))) row).get? p)
          = some (some (MVal.mint 0, FLOATty, cname)) := by
  induction writes with
  | nil => intro row _ hmem; simp at hmem
  | cons w ws ih =>
    intro row hp hmem
    simp only [List.foldl_cons]
    by_cases hws : p ∈ ws.map Prod.fst
    · exact ih _ (by simpa using hp) hws
    · have hwp : w.1 = p := by
        simp only [List.map_cons, List.mem_cons] at hmem
        rcases hmem with h | h
        · exact h.symm
        · exact absurd h hws
      refine ⟨w.2, ?_⟩
      have huntouched : ∀ w' ∈ ws, w'.1 ≠ p := by
        intro w' hw' he
        exact hws (he ▸ List.mem_map_of_mem Prod.fst hw')
      rw [foldl_set_untouched ws p _ huntouched]
      rw [hwp, List.get?_eq_getElem?]
      rw [List.getElem?_set_self (by simpa using hp)]

/-! ## `col_dict` membership -/

theorem addColGroup_preserve (acc : List (CPName × List ColDef)) (d : ColDef)
    (c : ColDef) (h : ∃ g ∈ acc, g.1 = c.1 ∧ c ∈ g.2) :
    ∃ g ∈ addColGroup acc d, g.1 = c.1 ∧ c ∈ g.2 := by
  induction acc with
  | nil => simp at h
  | cons g gs ih =>
    obtain ⟨g0, hg0, hkey, hmem⟩ := h
    by_cases hd : g.1 = d.1
    · simp only [addColGroup, if_pos hd]
      rcases List.mem_cons.mp hg0 with rfl | h2
      · exact ⟨(g0.1, g0.2 ++ [d]), List.mem_cons_self _ _, hkey,
          List.mem_append_left _ hmem⟩
      · exact ⟨g0, List.mem_cons_of_mem _ h2, hkey, hmem⟩
    · simp only [addColGroup, if_neg hd]
      rcases List.mem_cons.mp hg0 with rfl | h2
      · exact ⟨g0, List.mem_cons_self _ _, hkey, hmem⟩
      · obtain ⟨g1, hg1, hk1, hm1⟩ := ih ⟨g0, h2, hkey, hmem⟩
        exact ⟨g1, List.mem_cons_of_mem _ hg1, hk1, hm1⟩

theorem addColGroup_adds (acc : List (CPName × List ColDef)) (d : ColDef) :
    ∃ g ∈ addColGroup acc d, g.1 = d.1 ∧ d ∈ g.2 := by
  induction acc with
  | nil => exact ⟨(d.1, [d]), by simp [addColGroup]⟩
  | cons g gs ih =>
    by_cases hd : g.1 = d.1
    · exact ⟨(g.1, g.2 ++ [d]), by simp [addColGroup, hd], hd,
        List.mem_append_right _ (List.mem_cons_self _ _)⟩
    · obtain ⟨g1, hg1, hk1, hm1⟩ := ih
      exact ⟨g1, by simp only [addColGroup, if_neg hd]; exact List.mem_cons_of_mem _ hg1,
        hk1, hm1⟩

theorem colDict_mem_aux (c : ColDef) :
    ∀ (l : List ColDef) (acc : List (CPName × List ColDef)),
      ((∃ g ∈ acc, g.1 = c.1 ∧ c ∈ g.2) ∨ (c ∈ l ∧ c.1 ≠ sExperiment)) →
      ∃ g ∈ l.foldl
          (fun acc d => if d.1 = sExperiment then acc else addColGroup acc d) acc,
        g.1 = c.1 ∧ c ∈ g.2 := by
  intro l
  induction l with
  | nil =>
    intro acc h
    rcases h with h | ⟨h, _⟩
    · exact h
    · simp at h
  | cons d ds ih =>
    intro acc h
    simp only [List.foldl_cons]
    by_cases hd : d.1 = sExperiment
    · rw [if_pos hd]
      apply ih
      rcases h with h | ⟨hmem, hne⟩
      · exact Or.inl h
      · rcases List.mem_cons.mp hmem with rfl | h2
        · exact absurd hd hne
        · exact Or.inr ⟨h2, hne⟩
    · rw [if_neg hd]
      apply ih
      rcases h with h | ⟨hmem, hne⟩
      · exact Or.inl (addColGroup_preserve acc d c h)
      · rcases List.mem_cons.mp hmem with rfl | h2
        · exact Or.inl (addColGroup_adds acc c)
        · exact Or.inr ⟨h2, hne⟩

theorem colDict_mem (cdefs : List ColDef) (c : ColDef) (hc : c ∈ cdefs)
    (hne : c.1 ≠ sExperiment) :
    ∃ g ∈ colDict cdefs, g.1 = c.1 ∧ c ∈ g.2 :=
  colDict_mem_aux c cdefs [] (Or.inr ⟨hc, hne⟩)

/-! ## Membership of aggregate names in the derived structures -/

theorem mem_objectEntries (cdefs : List ColDef) (c : ColDef) (hc : c ∈ cdefs)
    (hne : c.1 ≠ sImage) (hig : ignore_feature c.1 c.2.1 = false) :
    c ∈ objectEntries cdefs := by
  simp only [objectEntries, List.mem_flatMap]
  refine ⟨c.1, ?_, ?_⟩
  · rw [mem_obTables]
    exact ⟨hne, not_ignore_ne_experiment _ _ hig, c, hc, rfl⟩
  · simp [List.mem_filter, hc, hig]

theorem mem_agg_column_defs_intro (cdefs : List ColDef) (active : List CPName)
    (c : ColDef) (hc : c ∈ objectEntries cdefs) (a : CPName) (ha : a ∈ active) :
    (sImage, aggFeatName a c.1 c.2.1, FLOATty) ∈ agg_column_defs cdefs active := by
  simp only [agg_column_defs, List.mem_flatMap]
  exact ⟨c, hc, List.mem_map_of_mem _ ha⟩

theorem aggName_mem_imageColumnNames (cdefs : List ColDef) (wm wmed ws : Bool)
    (c : ColDef) (hc : c ∈ cdefs) (hne : c.1 ≠ sImage)
    (hig : ignore_feature c.1 c.2.1 = false)
    (a : CPName) (ha : a ∈ agg_names wm wmed ws) :
    aggFeatName a c.1 c.2.1 ∈ imageColumnNames cdefs (agg_names wm wmed ws) := by
  have hobj := mem_objectEntries cdefs c hc hne hig
  have hagg := mem_agg_column_defs_intro cdefs _ c hobj a ha
  have higagg : ignore_feature sImage (aggFeatName a c.1 c.2.1) = false :=
    ignore_feature_agg a c.1 c.2.1 (mem_agg_names wm wmed ws a ha)
  simp only [imageColumnNames, List.mem_map]
  refine ⟨(sImage, aggFeatName a c.1 c.2.1, FLOATty), ?_, ?_⟩
  · rw [List.mem_filter]
    refine ⟨List.mem_append_right _ hagg, ?_⟩
    simp [higagg]
  · have hmemmap : ∃ d ∈ agg_column_defs cdefs (agg_names wm wmed ws),
        d.2.1 = (sImage, aggFeatName a c.1 c.2.1, FLOATty).2.1 :=
      ⟨(sImage, aggFeatName a c.1 c.2.1, FLOATty), hagg, rfl⟩
    rw [if_pos hmemmap]

theorem aggZeroWrites_mem (cdefs : List ColDef) (active : List CPName)
    (order : List (CPName × Nat)) (g : CPName × List ColDef)
    (hg : g ∈ colDict cdefs) (hgi : g.1 ≠ sImage) (c : ColDef) (hcg : c ∈ g.2)
    (a : CPName) (ha : a ∈ active) (p : Nat)
    (hl : dlookup order (aggFeatName a g.1 c.2.1) = some p) :
    (p, aggFeatName a g.1 c.2.1) ∈ aggZeroWrites (colDict cdefs) active order := by
  simp only [aggZeroWrites, List.mem_flatMap]
  refine ⟨g, hg, ?_⟩
  rw [if_neg hgi]
  simp only [List.mem_flatMap]
  refine ⟨c, hcg, ?_⟩
  simp only [List.mem_filterMap]
  exact ⟨a, ha, by rw [hl]; rfl⟩

/-! ## Row-length and position-bound lemmas -/

theorem dbImageFill_length (order : List (CPName × Nat)) (cols : List ColDef)
    (ms : CPName → MVal) (inum : Int) :
    (dbImageFill order cols ms inum).1.length = order.length + 1 := by
  have hgen : ∀ (cs : List ColDef) (st : List (Option ImageCell) × Int),
      ((cs.foldl (fun st c =>
          match dlookup order (featName sImage c.2.1) with
          | some p =>
            (st.1.set p (some (dbImageCoerce (ms c.2.1), c.2.2, featName sImage c.2.1)),
              if hasCountSub (featName sImage c.2.1) then
                max st.2 (toInt (dbImageCoerce (ms c.2.1)))
              else st.2)
          | none => st) st).1).length = st.1.length := by
    intro cs
    induction cs with
    | nil => intro st; rfl
    | cons c cs ih =>
      intro st
      simp only [List.foldl_cons]
      rw [ih]
      cases dlookup order (featName sImage c.2.1) <;> simp
  unfold dbImageFill
  rw [hgen]
  simp

theorem image_col_order_lookup_lt (cdefs : List ColDef) (active : List CPName)
    (hnd : (imageColumnNames cdefs active).Nodup) (k : CPName) (p : Nat)
    (h : dlookup (image_col_order cdefs active) k = some p) :
    p < (image_col_order cdefs active).length + 1 := by
  have hinv := ordFold_invariant 1 (imageColumnNames cdefs active)
    ([], 1) hnd (fun n _ => rfl) (by intro kv hkv; simp at hkv) rfl
  unfold image_col_order at h ⊢
  have hmem := dlookup_mem _ _ _ h
  have hlt := hinv.1 (k, p) hmem
  omega

theorem image_col_order_mem_isSome (cdefs : List ColDef) (active : List CPName)
    (k : CPName) (hk : k ∈ imageColumnNames cdefs active) :
    (dlookup (image_col_order cdefs active) k).isSome := by
  unfold image_col_order
  exact ordFold_mem_some k _ _ hk

theorem dbAggZeroFill_length (row : List (Option ImageCell))
    (cd : List (CPName × List ColDef)) (active : List CPName)
    (order : List (CPName × Nat)) :
    (dbAggZeroFill row cd active order).length = row.length := by
  unfold dbAggZeroFill
  exact foldl_set_length _ row

/-! ## `setAllZero` specification and the file-path positions -/

theorem setAllZero_spec (perImage : List (CPName × Nat)) :
    ∀ (ns : List CPName) (row : List (Option MVal)),
      (∀ n ∈ ns, (dlookup perImage n).isSome) →
      ∃ row2, setAllZero perImage ns row = some row2 ∧
        row2.length = row.length ∧
        (∀ p, p ∈ ns.filterMap (dlookup perImage) → p < row.length →
          row2.get? p = some (some (MVal.mint 0))) ∧
        (∀ p, p ∉ ns.filterMap (dlookup perImage) → row2.get? p = row.get? p) := by
  intro ns
  induction ns with
  | nil =>
    intro row _
    refine ⟨row, rfl, rfl, ?_, fun p _ => rfl⟩
    intro p hp _
    simp at hp
  | cons n ns ih =>
    intro row hsome
    have hs := hsome n (List.mem_cons_self _ _)
    obtain ⟨p0, hp0⟩ := Option.isSome_iff_exists.mp hs
    obtain ⟨row2, hset, hlen, hzero, hkeep⟩ := ih (row.set p0 (some (MVal.mint 0)))
      (fun m hm => hsome m (List.mem_cons_of_mem _ hm))
    refine ⟨row2, ?_, ?_, ?_, ?_⟩
    · simp only [setAllZero, hp0]
      exact hset
    · rw [hlen]; simp
    · intro p hp hplen
      simp only [List.filterMap_cons, hp0] at hp
      rcases List.mem_cons.mp hp with rfl | hp2
      · by_cases hrest : p ∈ ns.filterMap (dlookup perImage)
        · exact hzero p hrest (by simpa using hplen)
        · rw [hkeep p hrest, List.get?_eq_getElem?,
            List.getElem?_set_self (by simpa using hplen)]
      · exact hzero p hp2 (by simpa using hplen)
    · intro p hp
      simp only [List.filterMap_cons, hp0, List.mem_cons, not_or] at hp
      rw [hkeep p hp.2, List.get?_eq_getElem?, List.get?_eq_getElem?,
        List.getElem?_set_ne (fun he => hp.1 he.symm)]

theorem fileImageLoop_length (perImage : List (CPName × Nat)) (esc : CPName → CPName)
    (ms : CPName → MVal) :
    ∀ (fs : List CPName) (row : List (Option MVal)) (mc : Int)
      (res : List (Option MVal) × Int),
      fileImageLoop perImage esc ms fs row mc = some res → res.1.length = row.length := by
  intro fs
  induction fs with
  | nil =>
    intro row mc res h
    simp only [fileImageLoop] at h
    injection h with h
    subst h
    rfl
  | cons f fs ih =>
    intro row mc res h
    simp only [fileImageLoop] at h
    cases hig : ignore_feature sImage f
    · rw [hig] at h
      simp only [Bool.false_eq_true, if_false] at h
      cases hl : dlookup perImage (featName sImage f)
      · rw [hl] at h
        simp at h
      · rw [hl] at h
        simp only at h
        have := ih _ _ _ h
        simpa using this
    · rw [hig] at h
      simp only [if_true] at h
      exact ih _ _ _ h

theorem perImageMap_ImageNumber_isSome (cdefs : List ColDef)
    (objectNames : List CPName) (featNames : CPName → List CPName)
    (active : List CPName) :
    (dlookup (perImageMap cdefs objectNames featNames active) sImageNumber).isSome := by
  unfold perImageMap
  apply ordFold_preserves_some
  simp [dlookup_dset_self]

theorem fileAggZeroNames_lookup_isSome (cdefs : List ColDef)
    (objectNames : List CPName) (featNames : CPName → List CPName)
    (active : List CPName) (n : CPName)
    (hn : n ∈ fileAggZeroNames objectNames featNames active) :
    (dlookup (perImageMap cdefs objectNames featNames active) n).isSome := by
  unfold perImageMap
  apply ordFold_mem_some
  apply List.mem_append_right
  simp only [fileAggZeroNames, List.mem_flatMap] at hn
  obtain ⟨o, ho, hn2⟩ := hn
  by_cases hoi : o = sImage
  · rw [if_pos hoi] at hn2
    simp at hn2
  · rw [if_neg hoi] at hn2
    simp only [List.mem_flatMap] at hn2
    obtain ⟨f, hf, hn3⟩ := hn2
    cases hig : ignore_feature o f
    · rw [hig] at hn3
      simp only [Bool.false_eq_true, if_false, List.mem_map] at hn3
      obtain ⟨a, ha, rfl⟩ := hn3
      simp only [List.mem_flatMap]
      refine ⟨a, ha, o, ho, ?_⟩
      rw [if_neg hoi]
      simp only [List.mem_filterMap]
      refine ⟨f, hf, ?_⟩
      rw [hig]
      simp
    · rw [hig] at hn3
      simp at hn3

/-! ## Claim C2 -/

/-- **C2** (confirmed).  In every image set whose computed `max_count`
(the maximum over Image-class `Count` features) is 0, both writers
produce zero object rows, and every aggregate column cell of the image
row is set to the value 0 — a present cell, not `None` — for every
retained (object, feature) pair and selected aggregate kind.  The
relational conjunct assumes the derived image column names are distinct
(otherwise the source itself crashes on an out-of-range row index). -/
theorem claim_C2_zero_count_branch :
    (∀ (cdefs : List ColDef) (wm wmed ws : Bool) (ms : MeasSource) (inum : Int),
      (imageColumnNames cdefs (agg_names wm wmed ws)).Nodup →
      (dbImageFill (image_col_order cdefs (agg_names wm wmed ws)) (imageColsOf cdefs)
          ms.imageMeas inum).2 = 0 →
      ∃ row, write_data_to_db cdefs wm wmed ws ms inum = some (row, []) ∧
        ∀ o f t a, (o, f, t) ∈ cdefs → o ≠ sImage → ignore_feature o f = false →
          a ∈ agg_names wm wmed ws →
          ∃ p cname,
            dlookup (image_col_order cdefs (agg_names wm wmed ws)) (aggFeatName a o f)
                = some p ∧
              row.get? p = some (some (MVal.mint 0, FLOATty, cname))) ∧
    (∀ (cdefs : List ColDef) (objectNames : List CPName)
        (featNames : CPName → List CPName) (wm wmed ws : Bool) (ms : MeasSource)
        (esc : CPName → CPName) (inum : Int) (p0 : Nat) (row1 : List (Option MVal)),
      dlookup (perImageMap cdefs objectNames featNames (agg_names wm wmed ws))
          sImageNumber = some p0 →
      fileImageLoop (perImageMap cdefs objectNames featNames (agg_names wm wmed ws))
          esc ms.imageMeas (featNames sImage)
          ((List.replicate
              (dmaxVal (perImageMap cdefs objectNames featNames (agg_names wm wmed ws)) + 1)
              (none : Option MVal)).set p0 (some (MVal.mint inum))) 0
          = some (row1, 0) →
      ∃ row2, write_data_assemble objectNames featNames
            (perImageMap cdefs objectNames featNames (agg_names wm wmed ws))
            (perObjectMap objectNames featNames) wm wmed ws ms esc inum
          = some (row2, []) ∧
        ∀ o f a, o ∈ objectNames → o ≠ sImage → f ∈ featNames o →
          ignore_feature o f = false → a ∈ agg_names wm wmed ws →
          ∃ p, dlookup (perImageMap cdefs objectNames featNames (agg_names wm wmed ws))
                (aggFeatName a o f) = some p ∧
            row2.get? p = some (some (MVal.mint 0))) := by
  constructor
  · intro cdefs wm wmed ws ms inum hnodup h0
    refine ⟨dbAggZeroFill
        (dbImageFill (image_col_order cdefs (agg_names wm wmed ws)) (imageColsOf cdefs)
          ms.imageMeas inum).1
        (colDict cdefs) (agg_names wm wmed ws)
        (image_col_order cdefs (agg_names wm wmed ws)), ?_, ?_⟩
    · simp only [write_data_to_db]
      rw [if_pos h0]
    · intro o f t a hmem ho hig ha
      have hname : aggFeatName a o f ∈ imageColumnNames cdefs (agg_names wm wmed ws) :=
        aggName_mem_imageColumnNames cdefs wm wmed ws (o, f, t) hmem ho hig a ha
      obtain ⟨p, hp⟩ := Option.isSome_iff_exists.mp
        (image_col_order_mem_isSome cdefs _ _ hname)
      have hplt := image_col_order_lookup_lt cdefs _ hnodup _ p hp
      have hrowlen := dbImageFill_length (image_col_order cdefs (agg_names wm wmed ws))
        (imageColsOf cdefs) ms.imageMeas inum
      obtain ⟨g, hg, hgk, hcg⟩ := colDict_mem cdefs (o, f, t) hmem
        (not_ignore_ne_experiment o f hig)
      have hgi : g.1 ≠ sImage := by rw [hgk]; exact ho
      have hp' : dlookup (image_col_order cdefs (agg_names wm wmed ws))
          (aggFeatName a g.1 (o, f, t).2.1) = some p := by
        rw [hgk]; exact hp
      have hwmem := aggZeroWrites_mem cdefs (agg_names wm wmed ws)
        (image_col_order cdefs (agg_names wm wmed ws)) g hg hgi (o, f, t) hcg a ha p hp'
      obtain ⟨cname, hc⟩ := foldl_set_writes
        (aggZeroWrites (colDict cdefs) (agg_names wm wmed ws)
          (image_col_order cdefs (agg_names wm wmed ws))) p
        (dbImageFill (image_col_order cdefs (agg_names wm wmed ws)) (imageColsOf cdefs)
          ms.imageMeas inum).1
        (by rw [hrowlen]; exact hplt)
        (List.mem_map_of_mem Prod.fst hwmem)
      refine ⟨p, cname, hp, ?_⟩
      unfold dbAggZeroFill
      exact hc
  · intro cdefs objectNames featNames wm wmed ws ms esc inum p0 row1 hlook hloop
    have hall : ∀ n ∈ fileAggZeroNames objectNames featNames (agg_names wm wmed ws),
        (dlookup (perImageMap cdefs objectNames featNames (agg_names wm wmed ws)) n).isSome :=
      fun n hn => fileAggZeroNames_lookup_isSome cdefs objectNames featNames _ n hn
    obtain ⟨row2, hset, hlen2, hzero, _⟩ := setAllZero_spec
      (perImageMap cdefs objectNames featNames (agg_names wm wmed ws))
      (fileAggZeroNames objectNames featNames (agg_names wm wmed ws)) row1 hall
    have hrow1len : row1.length
        = dmaxVal (perImageMap cdefs objectNames featNames (agg_names wm wmed ws)) + 1 := by
      have := fileImageLoop_length
        (perImageMap cdefs objectNames featNames (agg_names wm wmed ws)) esc ms.imageMeas
        (featNames sImage) _ 0 (row1, 0) hloop
      simpa using this
    refine ⟨row2, ?_, ?_⟩
    · simp only [write_data_assemble, hlook, hloop, if_true]
      simp only [hset]
    · intro o f a ho hoi hf hig ha
      have hn : aggFeatName a o f
          ∈ fileAggZeroNames objectNames featNames (agg_names wm wmed ws) := by
        simp only [fileAggZeroNames, List.mem_flatMap]
        refine ⟨o, ho, ?_⟩
        rw [if_neg hoi]
        simp only [List.mem_flatMap]
        refine ⟨f, hf, ?_⟩
        rw [hig]
        simp only [Bool.false_eq_true, if_false, List.mem_map]
        exact ⟨a, ha, rfl⟩
      obtain ⟨p, hp⟩ := Option.isSome_iff_exists.mp (hall _ hn)
      have hple := dlookup_le_dmaxVal _ _ _ hp
      refine ⟨p, hp, ?_⟩
      apply hzero p (List.mem_filterMap.mpr ⟨_, hn, hp⟩)
      omega

/-- Witness for C2 at a concrete two-feature catalog with a zero
count, on both writers. -/
theorem claim_C2_witness :
    (∃ row, write_data_to_db c2defs true false false c2meas 1 = some (row, []) ∧
      ∀ o f t a, (o, f, t) ∈ c2defs → o ≠ sImage → ignore_feature o f = false →
        a ∈ agg_names true false false →
        ∃ p cname,
          dlookup (image_col_order c2defs (agg_names true false false)) (aggFeatName a o f)
              = some p ∧
            row.get? p = some (some (MVal.mint 0, FLOATty, cname))) ∧
    (∃ row2, write_data_assemble [sImage, "Nuclei".data] c2feats
          (perImageMap c2defs [sImage, "Nuclei".data] c2feats (agg_names true false false))
          (perObjectMap [sImage, "Nuclei".data] c2feats) true false false c2meas id 1
        = some (row2, []) ∧
      ∀ o f a, o ∈ [sImage, "Nuclei".data] → o ≠ sImage → f ∈ c2feats o →
        ignore_feature o f = false → a ∈ agg_names true false false →
        ∃ p, dlookup (perImageMap c2defs [sImage, "Nuclei".data] c2feats
              (agg_names true false false)) (aggFeatName a o f) = some p ∧
          row2.get? p = some (some (MVal.mint 0))) := by
  constructor
  · exact claim_C2_zero_count_branch.1 c2defs true false false c2meas 1
      (by decide) (by decide)
  · exact claim_C2_zero_count_branch.2 c2defs [sImage, "Nuclei".data] c2feats
      true false false c2meas id 1 0
      [some (MVal.mint 1), some (MVal.mint 0), none] (by decide) (by decide)
